import Mathlib

/-!
The explicit free-list allocator of `mm.c`.

A shallow embedding of the allocator in `mm.c`: `align`, `mm_init`,
`find_free_mem`, `malloc`, `free`, `realloc`, `calloc`, `in_heap`, `aligned`
and `mm_checkheap`, over a byte-addressed memory.

* Pointers and `size_t` values are natural numbers below `2^64`; every
  `size_t` operation is reduced modulo `2^64`.
* `NULL` is the pointer `0`, and `(void *)-1` is `2^64 - 1`.
* A header is three 8-byte little-endian fields: `size` at offset 0, `next`
  at offset 8 and `prev` at offset 16 (`sizeof(hdr) = 24`).
* Memory is total and loads and stores are not bounds-checked: a store
  through a pointer outside the heap changes the bytes it addresses.
* The loop of `find_free_mem` is run with a step budget; `none` means the
  budget ran out before the loop ended.
* The functions of `memlib.c` (`mm_sbrk`, `mm_heap_lo`, `mm_heap_hi`,
  `mm_memcpy`) and `memset` are modelled from their description.
-/

namespace Malloc

/-! ## Machine arithmetic -/

/-- The number of `size_t` values. -/
def W : Nat := 2 ^ 64

/-- Addition of `size_t` values. -/
def add64 (a b : Nat) : Nat := (a + b) % W

/-- Subtraction of `size_t` values. -/
def sub64 (a b : Nat) : Nat := (a + (W - b % W)) % W

/-- Multiplication of `size_t` values. -/
def mul64 (a b : Nat) : Nat := (a * b) % W

/-- The `NULL` pointer. -/
def NULL : Nat := 0

/-- The pointer `(void *)-1`. -/
def FAIL : Nat := W - 1

/-- The constant `~1` as a `size_t`. -/
def NOT1 : Nat := W - 2

/-- The macro `ALIGNMENT`: `#define ALIGNMENT 16`. -/
def ALIGNMENT : Nat := 16

/-- The function `align`: `ALIGNMENT * ((x+ALIGNMENT-1)/ALIGNMENT)` on `size_t`. -/
def align (x : Nat) : Nat :=
  mul64 ALIGNMENT (sub64 (add64 x ALIGNMENT) 1 / ALIGNMENT)

/-- The value of `sizeof(hdr)`: three 8-byte fields. -/
def sizeof_hdr : Nat := 24

/-- The macro `hdr_size`: `#define hdr_size align(sizeof(hdr))`. -/
def hdr_size : Nat := align sizeof_hdr

/-! ## Memory -/

/-- Read the 8-byte little-endian word at address `a`. -/
def read64 (m : Nat → Nat) (a : Nat) : Nat :=
  m a % 256 + 256 * (m (a + 1) % 256 + 256 * (m (a + 2) % 256 + 256 * (m (a + 3) % 256
    + 256 * (m (a + 4) % 256 + 256 * (m (a + 5) % 256 + 256 * (m (a + 6) % 256
    + 256 * (m (a + 7) % 256)))))))

/-- Store the 8-byte little-endian word `v` at address `a`. -/
def write64 (m : Nat → Nat) (a v : Nat) : Nat → Nat :=
  fun x => if a ≤ x ∧ x < a + 8 then v / 256 ^ (x - a) % 256 else m x

/-- The world of the allocator: the bytes of memory and the three addresses kept by
the memory system (`lo` the first heap byte, `brk` the first byte after the
heap, `max` the address the heap cannot grow past). -/
structure Heap where
  mem : Nat → Nat
  lo : Nat
  brk : Nat
  max : Nat

/-- Modelled from the spec: `mm_sbrk` of `memlib.c`, the heap-growth primitive:
"request N bytes; returns a pointer to the newly available region appended at
the current high-water mark, or a failure marker if growth is impossible".
Growth is impossible when the new break would pass `max`; the failure marker is
`(void *)-1`. -/
def mm_sbrk (s : Heap) (incr : Nat) : Nat × Heap :=
  if s.brk + incr ≤ s.max then (s.brk, { s with brk := s.brk + incr })
  else (FAIL, s)

/-- Modelled from the spec: `mm_heap_lo` of `memlib.c`, the "current low
address (identifies the sentinel location)". -/
def mm_heap_lo (s : Heap) : Nat := s.lo

/-- Modelled from the spec: `mm_heap_hi` of `memlib.c`, the "current high
address", the address of the last heap byte. -/
def mm_heap_hi (s : Heap) : Nat := s.brk - 1

/-- Modelled from the spec: `mm_memcpy` of `memlib.c`, the byte-copy primitive:
copies `n` bytes from `src` to `dst`, lowest address first. -/
def mm_memcpy (m : Nat → Nat) (dst src : Nat) : Nat → Nat → Nat
  | 0 => m
  | n + 1 =>
    mm_memcpy (fun x => if x = dst then m src else m x) (dst + 1) (src + 1) n

/-- Modelled from the spec: `memset`, the byte-fill primitive: the `n` bytes
from `dst` on are set to the byte `c`. -/
def memset (m : Nat → Nat) (dst c n : Nat) : Nat → Nat :=
  fun x => if dst ≤ x ∧ x < dst + n then c % 256 else m x

/-! ## Header fields -/

/-- The field `h->size`. -/
def size_of (s : Heap) (h : Nat) : Nat := read64 s.mem h

/-- The field `h->next`. -/
def next_of (s : Heap) (h : Nat) : Nat := read64 s.mem (h + 8)

/-- The field `h->prev`. -/
def prev_of (s : Heap) (h : Nat) : Nat := read64 s.mem (h + 16)

/-- The store `h->size = v`. -/
def set_size (s : Heap) (h v : Nat) : Heap := { s with mem := write64 s.mem h v }

/-- The store `h->next = v`. -/
def set_next (s : Heap) (h v : Nat) : Heap := { s with mem := write64 s.mem (h + 8) v }

/-- The store `h->prev = v`. -/
def set_prev (s : Heap) (h v : Nat) : Heap := { s with mem := write64 s.mem (h + 16) v }

/-! ## The allocator -/

/-- The function `mm_init`: the result of `mm_sbrk` is used as the sentinel without being
tested, and the function returns `true`. -/
def mm_init (s : Heap) : Bool × Heap :=
  let r := mm_sbrk s hdr_size
  let header := r.1
  let s1 := set_size r.2 header hdr_size
  let s2 := set_next s1 header header
  let s3 := set_prev s2 header header
  (true, s3)

/-- The `for` loop of `find_free_mem`, from `ptr` on: it goes on while
`ptr != mm_heap_lo() && ptr->size < req_size`. The result is `ptr` when the
loop ends, `none` when the budget runs out. -/
def find_loop (s : Heap) (req_size : Nat) : Nat → Nat → Option Nat
  | 0, _ => none
  | fuel + 1, ptr =>
    if ptr ≠ mm_heap_lo s ∧ size_of s ptr < req_size then
      find_loop s req_size fuel (next_of s ptr)
    else some ptr

/-- The function `find_free_mem`: the first block on the free list whose size field is at
least `req_size`, `NULL` when the loop comes back to the sentinel. -/
def find_free_mem (fuel : Nat) (s : Heap) (req_size : Nat) : Option Nat :=
  match find_loop s req_size fuel (next_of s (mm_heap_lo s)) with
  | none => none
  | some ptr => if ptr ≠ mm_heap_lo s then some ptr else some NULL

/-- The function `malloc`: the pointer returned and the heap after the call. -/
def malloc (fuel : Nat) (s : Heap) (size : Nat) : Option (Nat × Heap) :=
  if size = 0 then some (NULL, s)
  else
    let req_size := align (add64 size hdr_size)
    match find_free_mem fuel s req_size with
    | none => none
    | some ptr =>
      if ptr ≠ NULL then
        let s1 := set_size s ptr (size_of s ptr ||| 1)
        let s2 := set_next s1 (prev_of s1 ptr) (next_of s1 ptr)
        let s3 := set_prev s2 (next_of s2 ptr) (prev_of s2 ptr)
        some (add64 ptr hdr_size, s3)
      else
        let r := mm_sbrk s req_size
        if r.1 = FAIL then some (NULL, r.2)
        else some (add64 r.1 hdr_size, set_size r.2 r.1 (req_size ||| 1))

/-- The function `free`: the heap after the call. -/
def free (s : Heap) (ptr : Nat) : Heap :=
  let new_ptr := sub64 ptr hdr_size
  let head := mm_heap_lo s
  let s1 := set_size s new_ptr (size_of s new_ptr &&& NOT1)
  let s2 := set_next s1 new_ptr (next_of s1 head)
  let s3 := set_prev s2 new_ptr head
  let s4 := set_next s3 head new_ptr
  set_prev s4 (next_of s4 new_ptr) new_ptr

/-- The number of bytes `realloc` copies: `old_header->size - hdr_size`, read
after the inner `malloc`, capped by `size`. -/
def copy_size (s : Heap) (old_header size : Nat) : Nat :=
  let c := sub64 (size_of s old_header) hdr_size
  if c > size then size else c

/-- The function `realloc`: the pointer returned and the heap after the call. -/
def realloc (fuel : Nat) (s : Heap) (oldptr size : Nat) : Option (Nat × Heap) :=
  if oldptr = NULL then malloc fuel s size
  else if size = 0 then some (NULL, free s oldptr)
  else
    let s1 := free s oldptr
    let old_header := sub64 oldptr hdr_size
    match malloc fuel s1 size with
    | none => none
    | some (ptr, s2) =>
      if ptr = NULL then some (NULL, s2)
      else
        some (ptr, { s2 with mem := mm_memcpy s2.mem ptr oldptr (copy_size s2 old_header size) })

/-- The function `calloc`: the pointer returned and the heap after the call. -/
def calloc (fuel : Nat) (s : Heap) (nmemb size : Nat) : Option (Nat × Heap) :=
  let size := mul64 size nmemb
  match malloc fuel s size with
  | none => none
  | some (ptr, s1) =>
    if ptr ≠ NULL then some (ptr, { s1 with mem := memset s1.mem ptr 0 size })
    else some (ptr, s1)

/-- The function `in_heap`: whether the pointer is in the heap. -/
def in_heap (s : Heap) (p : Nat) : Bool :=
  decide (p ≤ mm_heap_hi s) && decide (p ≥ mm_heap_lo s)

/-- The function `aligned`: whether the pointer is aligned. -/
def aligned (p : Nat) : Bool := decide (align p = p)

/-- The function `mm_checkheap`: `DEBUG` is not defined, so the body is `return true`. -/
def mm_checkheap (_s : Heap) (_line_number : Nat) : Bool := true

/-! ## Heap layout and the free list, as predicates on a heap -/

/-- The size of block `h` with the allocation flag masked off. -/
def rsize (s : Heap) (h : Nat) : Nat := size_of s h &&& NOT1

/-- Block `h` is marked allocated: bit 0 of its size field is set. -/
@[reducible]
def allocated (s : Heap) (h : Nat) : Prop := size_of s h % 2 = 1

/-- The request sizes for which `size + hdr_size` and `align` do not wrap. -/
@[reducible]
def fits (size : Nat) : Prop := size + hdr_size + 15 < W

/-- The chain `Linked s a l z`: following `next` from `a` visits the nodes of `l` in
order and then `z`, and each `prev` leads one step back. -/
def Linked (s : Heap) : Nat → List Nat → Nat → Prop
  | a, [], z => next_of s a = z ∧ prev_of s z = a
  | a, b :: l, z => next_of s a = b ∧ prev_of s b = a ∧ Linked s b l z

/-- The chain `NextChain s a l z`: following `next` from `a` visits the nodes of `l` in
order and then `z`. -/
def NextChain (s : Heap) : Nat → List Nat → Nat → Prop
  | a, [], z => next_of s a = z
  | a, b :: l, z => next_of s a = b ∧ NextChain s b l z

/-- The walk `Tiles s a l`: the blocks found by walking the heap from address `a` to
the break, each block starting where the one before it ends, are those of
`l`. -/
def Tiles (s : Heap) : Nat → List Nat → Prop
  | a, [] => a = s.brk
  | a, h :: l => h = a ∧ Tiles s (a + rsize s a) l

/-- A well-placed block: 16-byte aligned, after the sentinel, of a masked size
that is a multiple of 16 and at least a header, and inside the heap. -/
def IsBlock (s : Heap) (h : Nat) : Prop :=
  h % 16 = 0 ∧ s.lo + 32 ≤ h ∧ 32 ≤ rsize s h ∧ rsize s h % 16 = 0 ∧ h + rsize s h ≤ s.brk

/-- The layout of the heap: the sentinel is the first header, and `blocks` are
the block headers after it in address order, one block after the other up to
the break. -/
structure Layout (s : Heap) (blocks : List Nat) : Prop where
  lo_al : s.lo % 16 = 0
  brk_al : s.brk % 16 = 0
  sent : s.lo + 32 ≤ s.brk
  brk_le : s.brk ≤ s.max
  max_lt : s.max < W
  sent_size : size_of s s.lo = 32
  tiles : Tiles s (s.lo + 32) blocks
  blk : ∀ h ∈ blocks, IsBlock s h
  disj : ∀ h ∈ blocks, ∀ k ∈ blocks, h < k → h + rsize s h ≤ k

/-- Well-formed heap: `blocks` are the block headers after the sentinel in
address order, `fl` is the free list in `next` order after the sentinel, and
`live` are the payload pointers that are currently allocated. A block is on the
free list when its flag is clear and behind a live pointer when it is set. -/
structure Inv (s : Heap) (blocks fl live : List Nat) : Prop where
  layout : Layout s blocks
  fl_nodup : fl.Nodup
  live_nodup : live.Nodup
  fl_blk : ∀ h ∈ fl, h ∈ blocks ∧ ¬ allocated s h
  live_blk : ∀ p ∈ live, 32 ≤ p ∧ p - 32 ∈ blocks ∧ allocated s (p - 32)
  cover : ∀ h ∈ blocks, h ∈ fl ∨ h + 32 ∈ live
  linked : Linked s s.lo fl s.lo

/-- Two header addresses are equal or at least a header apart. -/
def Sep (a b : Nat) : Prop := a = b ∨ a + 32 ≤ b ∨ b + 32 ≤ a

/-- A well-formed heap whose live pointers are `live`. -/
def WellFormed (s : Heap) (live : List Nat) : Prop := ∃ blocks fl, Inv s blocks fl live

/-- The free list is well formed: the nodes reached from the sentinel by
`next` are the sentinel and then the nodes of some list `fl`, without
repetition, and back to the sentinel; and each node `b` of the cycle has
`b.next.prev == b` and `b.prev.next == b`. -/
def FreeListWF (s : Heap) : Prop :=
  ∃ fl : List Nat, (s.lo :: fl).Nodup ∧ NextChain s s.lo fl s.lo ∧
    ∀ b ∈ s.lo :: fl, prev_of s (next_of s b) = b ∧ next_of s (prev_of s b) = b

/-- The node reached from `a` by following `next` `n` times. -/
def next_iter (s : Heap) : Nat → Nat → Nat
  | 0, a => a
  | n + 1, a => next_iter s n (next_of s a)

/-- Node `h` is reached from the sentinel by following `next` links. -/
def OnFreeList (s : Heap) (h : Nat) : Prop := ∃ n, next_iter s n s.lo = h

/-- The live pointers after a call that returned `p`: a non-null `p` is a new
live pointer. -/
def addLive (p : Nat) (live : List Nat) : List Nat :=
  if p = NULL then live else p :: live

/-- The relation `Reach ok s live`: the heap `s` is reached from a successful `mm_init` on
an empty heap with a 16-byte aligned base by calls of `malloc`, `free`,
`realloc` and `calloc` whose request sizes satisfy `ok`; `free` and `realloc`
are only given pointers that are live (`realloc` also `NULL`), and `live` are
the pointers returned and not freed since. -/
inductive Reach (ok : Nat → Prop) : Heap → List Nat → Prop
  | init (s0 : Heap) (hlo : s0.lo % 16 = 0) (hbrk : s0.brk = s0.lo)
      (hmax : s0.lo + hdr_size ≤ s0.max) (hW : s0.max < W) :
      Reach ok (mm_init s0).2 []
  | malloc (fuel size p : Nat) (s t : Heap) (live : List Nat)
      (hr : Reach ok s live) (hok : ok size)
      (hm : malloc fuel s size = some (p, t)) :
      Reach ok t (addLive p live)
  | free (p : Nat) (s : Heap) (live : List Nat)
      (hr : Reach ok s live) (hp : p ∈ live) :
      Reach ok (free s p) (live.erase p)
  | realloc (fuel size p q : Nat) (s t : Heap) (live : List Nat)
      (hr : Reach ok s live) (hp : p = NULL ∨ p ∈ live) (hok : ok size)
      (hm : realloc fuel s p size = some (q, t)) :
      Reach ok t (addLive q (live.erase p))
  | calloc (fuel nmemb size p : Nat) (s t : Heap) (live : List Nat)
      (hr : Reach ok s live) (hok : ok (nmemb * size))
      (hm : calloc fuel s nmemb size = some (p, t)) :
      Reach ok t (addLive p live)

/-- Every request size is allowed. -/
def anySize : Nat → Prop := fun _ => True

/-- The node at which the search of `find_free_mem` ends: the first node of
the list whose size field is at least `req`, the sentinel when there is
none. -/
def firstFit (s : Heap) (req : Nat) : List Nat → Nat
  | [] => s.lo
  | b :: l => if req ≤ size_of s b then b else firstFit s req l

/-- The heap after the three stores of `malloc` on a hit at `ptr`. -/
def hit (s : Heap) (ptr : Nat) : Heap :=
  let s1 := set_size s ptr (size_of s ptr ||| 1)
  let s2 := set_next s1 (prev_of s1 ptr) (next_of s1 ptr)
  set_prev s2 (next_of s2 ptr) (prev_of s2 ptr)

/-- The heap after `malloc` has extended the heap by `req` bytes and written
the new header. -/
def miss (s : Heap) (req : Nat) : Heap :=
  set_size { s with brk := s.brk + req } s.brk (req ||| 1)

/-- The result of `malloc` for a non-zero size on a heap whose free list is
`fl`: the first fit is unlinked, or else the heap is extended, or else the
result is `NULL`. -/
def mallocResult (s : Heap) (fl : List Nat) (size : Nat) : Nat × Heap :=
  let req := align (add64 size hdr_size)
  if firstFit s req fl ≠ s.lo then (add64 (firstFit s req fl) hdr_size, hit s (firstFit s req fl))
  else if s.brk + req ≤ s.max then (add64 s.brk hdr_size, miss s req)
  else (NULL, s)


/-! ## Concrete heaps -/

/-- An empty heap at address 4096 that can grow up to address 8192; every byte
of memory holds the value 170. -/
def heap0 : Heap := { mem := fun _ => 170, lo := 4096, brk := 4096, max := 8192 }

/-- The heap after `mm_init` on `heap0`. -/
def heap1 : Heap := (mm_init heap0).2

/-- The pointer returned by a call (`NULL` when the call did not return). -/
def ret (o : Option (Nat × Heap)) : Nat := (o.getD (NULL, heap0)).1

/-- The heap after a call. -/
def after (o : Option (Nat × Heap)) : Heap := (o.getD (NULL, heap0)).2

/-- The heap after `malloc(100)` on `heap1`, which returns 4160. -/
def heapM : Heap := after (malloc 1 heap1 100)

/-- The heap after `malloc(2^64 - 31)` on `heap1`: the request size wraps to
16, and the call returns 4160. -/
def heapA1 : Heap := after (malloc 1 heap1 (2 ^ 64 - 31))

/-- The heap after `malloc(1)` on `heapA1`, which returns 4176. -/
def heapA2 : Heap := after (malloc 1 heapA1 1)

/-- The heap after `free(4160)` and then `free(4176)` on `heapA2`. -/
def heapA3 : Heap := free (free heapA2 4160) 4176

/-- An empty heap at address 4096 that can grow up to address 4128 only: there
is room for the sentinel and for nothing else. -/
def heapF0 : Heap := { mem := fun _ => 170, lo := 4096, brk := 4096, max := 4128 }

/-- The heap after `mm_init` on `heapF0`. -/
def heapF : Heap := (mm_init heapF0).2

/-- An empty heap at address 4096 that can grow up to address 4112 only: there
is no room for the sentinel. -/
def heapS0 : Heap := { mem := fun _ => 170, lo := 4096, brk := 4096, max := 4112 }

/-- The heap after `malloc(2^64 - 47)` on `heap1`: the request size wraps to 0,
and the call returns 4160. -/
def heapB1 : Heap := after (malloc 1 heap1 (2 ^ 64 - 47))

/-- The heap after `free(4160)` on `heapB1`. -/
def heapB2 : Heap := free heapB1 4160

/-- The heap after `malloc(1)` on `heapB2`, which returns 4160 again. -/
def heapB3 : Heap := after (malloc 2 heapB2 1)

/-- The heap after `free(4160)` on `heapB3`. -/
def heapB4 : Heap := free heapB3 4160

/-- An empty heap at address 4096 that can grow up to address 65536. -/
def heapL0 : Heap := { mem := fun _ => 170, lo := 4096, brk := 4096, max := 65536 }

/-- The heap `heap1` with the `next` field of the sentinel set to 5001, an
address that is not 16-byte aligned and lies after the heap. -/
def heapC : Heap := set_next heap1 4096 5001

/-! ## Counting the links that the search follows -/

/-- The number of times the loop of `find_free_mem`, from `ptr` on, runs its
step `ptr = ptr->next`; `none` when the budget runs out. -/
def find_loop_links (s : Heap) (req_size : Nat) : Nat → Nat → Option Nat
  | 0, _ => none
  | fuel + 1, ptr =>
    if ptr ≠ mm_heap_lo s ∧ size_of s ptr < req_size then
      (find_loop_links s req_size fuel (next_of s ptr)).map (fun k => k + 1)
    else some 0

/-- The number of `next` links that `find_free_mem` follows: the one of the
initialisation `ptr = mm_heap_lo()->next` and those of the loop. -/
def find_links (fuel : Nat) (s : Heap) (req_size : Nat) : Option Nat :=
  (find_loop_links s req_size fuel (next_of s (mm_heap_lo s))).map (fun k => k + 1)

/-! ## The byte count of the copy in `realloc` -/

/-- The number of bytes that `realloc(oldptr, size)`, for a non-null `oldptr`
and a non-zero `size`, passes to `mm_memcpy`: `none` when the inner `malloc`
does not return or returns `NULL`, so that nothing is copied. -/
def realloc_count (fuel : Nat) (s : Heap) (oldptr size : Nat) : Option Nat :=
  match malloc fuel (free s oldptr) size with
  | none => none
  | some (ptr, s2) =>
    if ptr = NULL then none else some (copy_size s2 (sub64 oldptr hdr_size) size)

/-! ## Live allocations with their requested sizes -/

/-- The relation `Allocs s live`: the heap `s` is reached from a successful
`mm_init` on an empty heap with a 16-byte aligned base by calls of `malloc`
with sizes `S` such that `1 ≤ S` and `S + hdr_size + 15 < 2^64`, and of `free`
on live pointers; `live` holds each live pointer with the size that was
requested for it. -/
inductive Allocs : Heap → List (Nat × Nat) → Prop
  | init (s0 : Heap) (hlo : s0.lo % 16 = 0) (hbrk : s0.brk = s0.lo)
      (hmax : s0.lo + hdr_size ≤ s0.max) (hW : s0.max < W) :
      Allocs (mm_init s0).2 []
  | malloc (fuel size p : Nat) (s t : Heap) (live : List (Nat × Nat))
      (hr : Allocs s live) (h1 : 1 ≤ size) (hok : fits size)
      (hm : malloc fuel s size = some (p, t)) :
      Allocs t (if p = NULL then live else (p, size) :: live)
  | free (p size : Nat) (s : Heap) (live : List (Nat × Nat))
      (hr : Allocs s live) (hp : (p, size) ∈ live) :
      Allocs (free s p) (live.erase (p, size))

/-- The heap after `free(4160)` on `heapM`: the free list holds the block at
4128, of size 144. -/
def heapN : Heap := free heapM 4160

/-- Well-formed heap with requested sizes: the heap is well formed with the
pointers of `live` as live pointers, and the block behind each has room for
the size requested. -/
def AInv (s : Heap) (live : List (Nat × Nat)) : Prop :=
  ∃ blocks fl, Inv s blocks fl (live.map Prod.fst) ∧
    ∀ a ∈ live, a.2 + 32 ≤ rsize s (a.1 - 32)

/-- The heap after `malloc(200)` on `heapM`, which returns 4304. -/
def heapM2 : Heap := after (malloc 1 heapM 200)

/-! ## Arithmetic and memory lemmas -/

theorem hdr_size_eq : hdr_size = 32 := by decide

theorem W_eq : W = 18446744073709551616 := by decide

theorem read64_lt (m : Nat → Nat) (a : Nat) : read64 m a < W := by
  unfold read64 W; omega

theorem read64_write64_same (m : Nat → Nat) (a v : Nat) :
    read64 (write64 m a v) a = v % W := by
  simp only [read64, write64, W]
  simp
  omega

theorem read64_write64_disj (m : Nat → Nat) (a v b : Nat) (h : a + 8 ≤ b ∨ b + 8 ≤ a) :
    read64 (write64 m a v) b = read64 m b := by
  have e : ∀ i, i < 8 → write64 m a v (b + i) = m (b + i) := by
    intro i hi
    unfold write64
    rw [if_neg]; omega
  have e0 := e 0 (by omega)
  simp only [Nat.add_zero] at e0
  unfold read64
  rw [e0, e 1 (by omega), e 2 (by omega), e 3 (by omega), e 4 (by omega), e 5 (by omega),
    e 6 (by omega), e 7 (by omega)]

theorem write64_out (m : Nat → Nat) (a v x : Nat) (h : x < a ∨ a + 8 ≤ x) :
    write64 m a v x = m x := by
  unfold write64
  rw [if_neg]; omega

theorem read64_congr (m m2 : Nat → Nat) (a : Nat) (h : ∀ x, a ≤ x → x < a + 8 → m2 x = m x) :
    read64 m2 a = read64 m a := by
  unfold read64
  rw [h a (by omega) (by omega), h (a + 1) (by omega) (by omega), h (a + 2) (by omega) (by omega),
    h (a + 3) (by omega) (by omega), h (a + 4) (by omega) (by omega),
    h (a + 5) (by omega) (by omega), h (a + 6) (by omega) (by omega),
    h (a + 7) (by omega) (by omega)]

theorem or_one_eq (x : Nat) : x ||| 1 = 2 * (x / 2) + 1 := by
  have h1 : x = Nat.bit (x.bodd) (x / 2) := by
    rw [← Nat.div2_val]; exact (Nat.bit_decomp x).symm
  have h2 : (1 : Nat) = Nat.bit true 0 := by decide
  conv_lhs => rw [h1, h2, Nat.lor_bit]
  simp [Nat.bit_val]

theorem and_not1 (x : Nat) (h : x < W) : x &&& NOT1 = 2 * (x / 2) := by
  have h1 : x = Nat.bit (x.bodd) (x / 2) := by
    rw [← Nat.div2_val]; exact (Nat.bit_decomp x).symm
  have h2 : NOT1 = Nat.bit false (2 ^ 63 - 1) := by decide
  conv_lhs => rw [h1, h2, Nat.land_bit, Nat.and_pow_two_sub_one_eq_mod]
  simp [Nat.bit_val]
  unfold W at h
  omega

theorem rsize_eq (s : Heap) (h : Nat) : rsize s h = 2 * (size_of s h / 2) := by
  unfold rsize
  exact and_not1 _ (read64_lt _ _)

theorem align_of_lt (x : Nat) (h : x + 15 < W) : align x = 16 * ((x + 15) / 16) := by
  unfold W at h
  unfold align mul64 sub64 add64 ALIGNMENT W
  omega

theorem align_mod (x : Nat) : align x % 16 = 0 := by
  unfold align mul64 sub64 add64 ALIGNMENT W
  omega

theorem align_lt (x : Nat) : align x < W := by
  unfold align mul64 sub64 add64 ALIGNMENT W
  omega

/-- The request size of a `malloc` whose size fits. -/
theorem req_of_fits (size : Nat) (h : fits size) :
    align (add64 size hdr_size) = 16 * ((size + 47) / 16) := by
  unfold fits at h
  rw [hdr_size_eq] at h ⊢
  have e : add64 size 32 = size + 32 := by unfold add64; unfold W at *; omega
  rw [e, align_of_lt _ (by omega)]

/-! ## Reading a header field after a store -/

theorem size_set_size (s : Heap) (a v x : Nat) (h : Sep a x) :
    size_of (set_size s a v) x = if x = a then v % W else size_of s x := by
  unfold size_of set_size
  by_cases e : x = a
  · subst e; simp [read64_write64_same]
  · rw [if_neg e]; exact read64_write64_disj _ _ _ _ (by unfold Sep at h; omega)

theorem next_set_size (s : Heap) (a v x : Nat) (h : Sep a x) :
    next_of (set_size s a v) x = next_of s x := by
  unfold next_of set_size
  exact read64_write64_disj _ _ _ _ (by unfold Sep at h; omega)

theorem prev_set_size (s : Heap) (a v x : Nat) (h : Sep a x) :
    prev_of (set_size s a v) x = prev_of s x := by
  unfold prev_of set_size
  exact read64_write64_disj _ _ _ _ (by unfold Sep at h; omega)

theorem size_set_next (s : Heap) (a v x : Nat) (h : Sep a x) :
    size_of (set_next s a v) x = size_of s x := by
  unfold size_of set_next
  exact read64_write64_disj _ _ _ _ (by unfold Sep at h; omega)

theorem next_set_next (s : Heap) (a v x : Nat) (h : Sep a x) :
    next_of (set_next s a v) x = if x = a then v % W else next_of s x := by
  unfold next_of set_next
  by_cases e : x = a
  · subst e; simp [read64_write64_same]
  · rw [if_neg e]; exact read64_write64_disj _ _ _ _ (by unfold Sep at h; omega)

theorem prev_set_next (s : Heap) (a v x : Nat) (h : Sep a x) :
    prev_of (set_next s a v) x = prev_of s x := by
  unfold prev_of set_next
  exact read64_write64_disj _ _ _ _ (by unfold Sep at h; omega)

theorem size_set_prev (s : Heap) (a v x : Nat) (h : Sep a x) :
    size_of (set_prev s a v) x = size_of s x := by
  unfold size_of set_prev
  exact read64_write64_disj _ _ _ _ (by unfold Sep at h; omega)

theorem next_set_prev (s : Heap) (a v x : Nat) (h : Sep a x) :
    next_of (set_prev s a v) x = next_of s x := by
  unfold next_of set_prev
  exact read64_write64_disj _ _ _ _ (by unfold Sep at h; omega)

theorem prev_set_prev (s : Heap) (a v x : Nat) (h : Sep a x) :
    prev_of (set_prev s a v) x = if x = a then v % W else prev_of s x := by
  unfold prev_of set_prev
  by_cases e : x = a
  · subst e; simp [read64_write64_same]
  · rw [if_neg e]; exact read64_write64_disj _ _ _ _ (by unfold Sep at h; omega)

/-! ## The doubly linked chain -/

theorem Linked_frame (s t : Heap) (z : Nat) : ∀ (l : List Nat) (a : Nat), Linked s a l z →
    (∀ x ∈ a :: l, next_of t x = next_of s x) →
    (∀ x ∈ l ++ [z], prev_of t x = prev_of s x) → Linked t a l z := by
  intro l
  induction l with
  | nil =>
    intro a h hn hp
    simp only [Linked] at h ⊢
    rw [hn a (by simp), hp z (by simp)]
    exact h
  | cons b l ih =>
    intro a h hn hp
    simp only [Linked] at h ⊢
    refine ⟨?_, ?_, ih b h.2.2 ?_ ?_⟩
    · rw [hn a (by simp)]; exact h.1
    · rw [hp b (by simp)]; exact h.2.1
    · intro x hx; exact hn x (List.mem_cons_of_mem _ hx)
    · intro x hx; exact hp x (by simp only [List.cons_append]; exact List.mem_cons_of_mem _ hx)

theorem Linked_next_mem (s : Heap) (z b : Nat) : ∀ (l : List Nat) (a : Nat), Linked s a l z →
    b ∈ a :: l → next_of s b ∈ l ++ [z] := by
  intro l
  induction l with
  | nil =>
    intro a h hb
    simp only [Linked] at h
    simp only [List.mem_singleton] at hb
    subst hb
    simp [h.1]
  | cons c l ih =>
    intro a h hb
    simp only [Linked] at h
    rcases List.mem_cons.1 hb with e | hb2
    · subst e; rw [h.1]; simp
    · have := ih c h.2.2 hb2
      simp only [List.cons_append]
      exact List.mem_cons_of_mem _ this

theorem Linked_prev_mem (s : Heap) (z b : Nat) : ∀ (l : List Nat) (a : Nat), Linked s a l z →
    b ∈ l ++ [z] → prev_of s b ∈ a :: l := by
  intro l
  induction l with
  | nil =>
    intro a h hb
    simp only [Linked] at h
    simp only [List.nil_append, List.mem_singleton] at hb
    subst hb
    simp [h.2]
  | cons c l ih =>
    intro a h hb
    simp only [Linked] at h
    simp only [List.cons_append] at hb
    rcases List.mem_cons.1 hb with e | hb2
    · subst e; rw [h.2.1]; simp
    · exact List.mem_cons_of_mem _ (ih c h.2.2 hb2)

/-- Pushing a new node `h` right after the head `a` of a chain. -/
theorem Linked_push (s t : Heap) (a z h : Nat) (l : List Nat) (hl : Linked s a l z)
    (hnd : (a :: l).Nodup) (hz : z ∉ l) (hh : h ∉ a :: l) (hhz : h ≠ z)
    (h1 : next_of t a = h) (h2 : prev_of t h = a) (h3 : next_of t h = next_of s a)
    (h4 : prev_of t (next_of s a) = h)
    (hn : ∀ x ∈ l, next_of t x = next_of s x)
    (hp : ∀ x ∈ l ++ [z], x ≠ next_of s a → prev_of t x = prev_of s x) :
    Linked t a (h :: l) z := by
  cases l with
  | nil =>
    simp only [Linked] at hl ⊢
    rw [hl.1] at h3 h4
    exact ⟨h1, h2, h3, h4⟩
  | cons c l =>
    simp only [Linked] at hl ⊢
    rw [hl.1] at h3 h4 hp
    refine ⟨h1, h2, h3, h4, ?_⟩
    have hnd2 : (c :: l).Nodup := (List.nodup_cons.1 hnd).2
    have hcl : c ∉ l := (List.nodup_cons.1 hnd2).1
    refine Linked_frame s t z l c hl.2.2 hn ?_
    intro x hx
    refine hp x (by simp only [List.cons_append]; exact List.mem_cons_of_mem _ hx) ?_
    intro e
    subst e
    rcases List.mem_append.1 hx with hx1 | hx1
    · exact hcl hx1
    · simp only [List.mem_singleton] at hx1
      subst hx1
      exact hz (by simp)

/-- Unlinking the node `b` of a chain: its predecessor and successor are
joined, and the rest of the chain is as before. -/
theorem Linked_unlink (s t : Heap) (z b : Nat) : ∀ (l : List Nat) (a : Nat), Linked s a l z →
    b ∈ l → (a :: l).Nodup → z ∉ l →
    next_of t (prev_of s b) = next_of s b →
    prev_of t (next_of s b) = prev_of s b →
    (∀ x ∈ a :: l, x ≠ prev_of s b → next_of t x = next_of s x) →
    (∀ x ∈ l ++ [z], x ≠ next_of s b → prev_of t x = prev_of s x) →
    Linked t a (l.erase b) z := by
  intro l
  induction l with
  | nil => intro a _ hb; simp at hb
  | cons c l ih =>
    intro a hl hb hnd hz h1 h2 hn hp
    have hnd2 : (c :: l).Nodup := (List.nodup_cons.1 hnd).2
    have hcl : c ∉ l := (List.nodup_cons.1 hnd2).1
    have hza : a ∉ c :: l := (List.nodup_cons.1 hnd).1
    by_cases e : c = b
    · subst e
      rw [List.erase_cons_head]
      simp only [Linked] at hl
      rw [hl.2.1] at h1 h2 hn
      cases l with
      | nil =>
        simp only [Linked] at hl ⊢
        rw [hl.2.2.1] at h1 h2
        exact ⟨h1, h2⟩
      | cons d l =>
        simp only [Linked] at hl ⊢
        rw [hl.2.2.1] at h1 h2 hp
        refine ⟨h1, h2, Linked_frame s t z l d hl.2.2.2.2 ?_ ?_⟩
        · intro x hx
          refine hn x (List.mem_cons_of_mem _ (List.mem_cons_of_mem _ hx)) ?_
          intro e; subst e
          exact hza (List.mem_cons_of_mem _ hx)
        · intro x hx
          refine hp x (by simp only [List.cons_append]
                          exact List.mem_cons_of_mem _ (List.mem_cons_of_mem _ hx)) ?_
          intro e; subst e
          rcases List.mem_append.1 hx with hx1 | hx1
          · exact (List.nodup_cons.1 (List.nodup_cons.1 hnd2).2).1 hx1
          · simp only [List.mem_singleton] at hx1
            subst hx1
            exact hz (by simp)
    · have hbl : b ∈ l := by
        rcases List.mem_cons.1 hb with e2 | e2
        · exact absurd e2.symm e
        · exact e2
      rw [List.erase_cons_tail (by simpa using e)]
      have hl0 := hl
      simp only [Linked] at hl ⊢
      have hpm : prev_of s b ∈ c :: l :=
        Linked_prev_mem s z b l c hl.2.2 (List.mem_append_left _ hbl)
      have hnm : next_of s b ∈ l ++ [z] :=
        Linked_next_mem s z b l c hl.2.2 (List.mem_cons_of_mem _ hbl)
      refine ⟨?_, ?_, ih c hl.2.2 hbl hnd2 (fun h => hz (List.mem_cons_of_mem _ h)) h1 h2 ?_ ?_⟩
      · rw [hn a (by simp) (by intro e2; rw [← e2] at hpm; exact hza hpm)]
        exact hl.1
      · rw [hp c (by simp) ?_]
        · exact hl.2.1
        · intro e2
          rw [← e2] at hnm
          rcases List.mem_append.1 hnm with hx1 | hx1
          · exact hcl hx1
          · simp only [List.mem_singleton] at hx1
            subst hx1
            exact hz (by simp)
      · intro x hx; exact hn x (List.mem_cons_of_mem _ hx)
      · intro x hx
        exact hp x (by simp only [List.cons_append]; exact List.mem_cons_of_mem _ hx)

theorem Linked_NextChain (s : Heap) (z : Nat) : ∀ (l : List Nat) (a : Nat), Linked s a l z →
    NextChain s a l z := by
  intro l
  induction l with
  | nil => intro a h; exact h.1
  | cons b l ih => intro a h; exact ⟨h.1, ih b h.2.2⟩

/-- In a chain from `a` to `z`, the `prev` of the `next` of each node before
`z` is the node itself. -/
theorem Linked_prev_next (s : Heap) (z : Nat) : ∀ (l : List Nat) (a : Nat), Linked s a l z →
    ∀ b ∈ a :: l, prev_of s (next_of s b) = b := by
  intro l
  induction l with
  | nil =>
    intro a h b hb
    simp only [List.mem_singleton] at hb
    subst hb
    rw [h.1, h.2]
  | cons c l ih =>
    intro a h b hb
    simp only [Linked] at h
    rcases List.mem_cons.1 hb with e | hb2
    · subst e; rw [h.1, h.2.1]
    · exact ih c h.2.2 b hb2

/-- In a chain from `a` to `z`, the `next` of the `prev` of each node after
`a` is the node itself. -/
theorem Linked_next_prev (s : Heap) (z : Nat) : ∀ (l : List Nat) (a : Nat), Linked s a l z →
    ∀ b ∈ l ++ [z], next_of s (prev_of s b) = b := by
  intro l
  induction l with
  | nil =>
    intro a h b hb
    simp only [List.nil_append, List.mem_singleton] at hb
    subst hb
    rw [h.2, h.1]
  | cons c l ih =>
    intro a h b hb
    simp only [Linked] at h
    simp only [List.cons_append] at hb
    rcases List.mem_cons.1 hb with e | hb2
    · subst e; rw [h.2.1, h.1]
    · exact ih c h.2.2 b hb2

theorem NextChain_reach (s : Heap) (z : Nat) : ∀ (l : List Nat) (a : Nat), NextChain s a l z →
    ∀ x ∈ l, ∃ n, next_iter s n a = x := by
  intro l
  induction l with
  | nil => intro a _ x hx; simp at hx
  | cons b l ih =>
    intro a h x hx
    simp only [NextChain] at h
    rcases List.mem_cons.1 hx with e | hx2
    · exact ⟨1, by simp [next_iter, h.1, e]⟩
    · obtain ⟨n, hn⟩ := ih b h.2 x hx2
      exact ⟨n + 1, by simp only [next_iter]; rw [h.1]; exact hn⟩

theorem NextChain_next_mem (s : Heap) (z b : Nat) : ∀ (l : List Nat) (a : Nat),
    NextChain s a l z → b ∈ a :: l → next_of s b ∈ l ++ [z] := by
  intro l
  induction l with
  | nil =>
    intro a h hb
    simp only [NextChain] at h
    simp only [List.mem_singleton] at hb
    subst hb
    simp [h]
  | cons c l ih =>
    intro a h hb
    simp only [NextChain] at h
    rcases List.mem_cons.1 hb with e | hb2
    · subst e; rw [h.1]; simp
    · have := ih c h.2 hb2
      simp only [List.cons_append]
      exact List.mem_cons_of_mem _ this

/-- On a cycle through the sentinel, following `next` from the sentinel never
leaves the cycle. -/
theorem next_iter_mem (s : Heap) (l : List Nat) (h : NextChain s s.lo l s.lo) :
    ∀ (n : Nat) (a : Nat), a ∈ s.lo :: l → next_iter s n a ∈ s.lo :: l := by
  intro n
  induction n with
  | zero => intro a ha; exact ha
  | succ n ih =>
    intro a ha
    simp only [next_iter]
    apply ih
    have := NextChain_next_mem s s.lo a l s.lo h ha
    rcases List.mem_append.1 this with h1 | h1
    · exact List.mem_cons_of_mem _ h1
    · simp only [List.mem_singleton] at h1
      rw [h1]; simp

/-! ## The search loop -/

theorem find_loop_spec (s : Heap) (req : Nat) : ∀ (l : List Nat) (a fuel : Nat),
    NextChain s a l s.lo → s.lo ∉ l → l.length + 1 ≤ fuel →
    find_loop s req fuel (next_of s a) = some (firstFit s req l) := by
  intro l
  induction l with
  | nil =>
    intro a fuel h _ hf
    simp only [NextChain] at h
    obtain ⟨f, rfl⟩ : ∃ f, fuel = f + 1 := ⟨fuel - 1, by omega⟩
    simp [find_loop, h, mm_heap_lo, firstFit]
  | cons b l ih =>
    intro a fuel h hlo hf
    simp only [NextChain] at h
    simp only [List.length_cons] at hf
    obtain ⟨f, rfl⟩ : ∃ f, fuel = f + 1 := ⟨fuel - 1, by omega⟩
    have hb : b ≠ s.lo := fun e => hlo (by simp [e])
    rw [h.1]
    simp only [find_loop, firstFit, mm_heap_lo]
    by_cases c : req ≤ size_of s b
    · rw [if_neg (by omega), if_pos c]
    · rw [if_pos ⟨hb, by omega⟩, if_neg c]
      exact ih b f h.2 (fun h2 => hlo (List.mem_cons_of_mem _ h2)) (by omega)

theorem firstFit_mem (s : Heap) (req : Nat) : ∀ l : List Nat,
    firstFit s req l = s.lo ∨ (firstFit s req l ∈ l ∧ req ≤ size_of s (firstFit s req l)) := by
  intro l
  induction l with
  | nil => left; rfl
  | cons b l ih =>
    simp only [firstFit]
    by_cases c : req ≤ size_of s b
    · rw [if_pos c]; right; exact ⟨by simp, c⟩
    · rw [if_neg c]
      rcases ih with h | h
      · left; exact h
      · right; exact ⟨List.mem_cons_of_mem _ h.1, h.2⟩

theorem firstFit_none (s : Heap) (req : Nat) : ∀ l : List Nat,
    (∀ b ∈ l, size_of s b < req) → firstFit s req l = s.lo := by
  intro l
  induction l with
  | nil => intro _; rfl
  | cons b l ih =>
    intro h
    simp only [firstFit]
    rw [if_neg (by have := h b (by simp); omega)]
    exact ih (fun x hx => h x (List.mem_cons_of_mem _ hx))

theorem firstFit_lo (s : Heap) (req : Nat) : ∀ l : List Nat, s.lo ∉ l →
    firstFit s req l = s.lo → ∀ b ∈ l, size_of s b < req := by
  intro l
  induction l with
  | nil => intro _ _ b hb; simp at hb
  | cons c l ih =>
    intro hlo h b hb
    simp only [firstFit] at h
    by_cases e : req ≤ size_of s c
    · rw [if_pos e] at h
      exact absurd (by simp [h]) hlo
    · rw [if_neg e] at h
      rcases List.mem_cons.1 hb with e2 | hb2
      · subst e2; omega
      · exact ih (fun h2 => hlo (List.mem_cons_of_mem _ h2)) h b hb2

/-! ## Facts of a well-formed heap -/

theorem Tiles_frame (s t : Heap) (hb : t.brk = s.brk) : ∀ (l : List Nat) (a : Nat),
    Tiles s a l → (∀ x ∈ l, rsize t x = rsize s x) → Tiles t a l := by
  intro l
  induction l with
  | nil => intro a h _; simp only [Tiles] at h ⊢; omega
  | cons b l ih =>
    intro a h hr
    simp only [Tiles] at h ⊢
    refine ⟨h.1, ?_⟩
    have e : rsize t a = rsize s a := by rw [← h.1]; exact hr b (by simp)
    rw [e]
    exact ih _ h.2 (fun x hx => hr x (List.mem_cons_of_mem _ hx))

theorem Tiles_append (s t : Heap) (hb : t.brk = s.brk + rsize t s.brk) :
    ∀ (l : List Nat) (a : Nat),
    Tiles s a l → (∀ x ∈ l, rsize t x = rsize s x) → Tiles t a (l ++ [s.brk]) := by
  intro l
  induction l with
  | nil =>
    intro a h _
    simp only [Tiles] at h
    simp only [List.nil_append, Tiles]
    subst h
    exact ⟨rfl, hb.symm⟩
  | cons b l ih =>
    intro a h hr
    simp only [Tiles] at h
    simp only [List.cons_append, Tiles]
    refine ⟨h.1, ?_⟩
    have e : rsize t a = rsize s a := by rw [← h.1]; exact hr b (by simp)
    rw [e]
    exact ih _ h.2 (fun x hx => hr x (List.mem_cons_of_mem _ hx))

theorem Layout.sep (s : Heap) (blocks : List Nat) (hl : Layout s blocks) :
    ∀ x ∈ s.lo :: blocks, ∀ y ∈ s.lo :: blocks, Sep x y := by
  intro x hx y hy
  unfold Sep
  rcases List.mem_cons.1 hx with e1 | h1 <;> rcases List.mem_cons.1 hy with e2 | h2
  · left; rw [e1, e2]
  · have := (hl.blk y h2).2.1; omega
  · have := (hl.blk x h1).2.1; omega
  · have b1 := (hl.blk x h1).2.2.1
    have b2 := (hl.blk y h2).2.2.1
    rcases Nat.lt_trichotomy x y with c | c | c
    · have := hl.disj x h1 y h2 c; omega
    · left; exact c
    · have := hl.disj y h2 x h1 c; omega

/-- A heap with the same bounds and the same masked sizes has the same
layout. -/
theorem Layout_frame (s t : Heap) (blocks : List Nat) (hl : Layout s blocks)
    (h1 : t.lo = s.lo) (h2 : t.brk = s.brk) (h3 : t.max = s.max)
    (h4 : size_of t s.lo = size_of s s.lo)
    (h5 : ∀ x ∈ blocks, rsize t x = rsize s x) : Layout t blocks where
  lo_al := by rw [h1]; exact hl.lo_al
  brk_al := by rw [h2]; exact hl.brk_al
  sent := by rw [h1, h2]; exact hl.sent
  brk_le := by rw [h2, h3]; exact hl.brk_le
  max_lt := by rw [h3]; exact hl.max_lt
  sent_size := by rw [h1, h4]; exact hl.sent_size
  tiles := by rw [h1]; exact Tiles_frame s t h2 blocks _ hl.tiles h5
  blk := by
    intro h hh
    have := hl.blk h hh
    unfold IsBlock at this ⊢
    rw [h1, h2, h5 h hh]
    exact this
  disj := by
    intro h hh k hk hlt
    rw [h5 h hh]
    exact hl.disj h hh k hk hlt

theorem Inv.fl_lo (s : Heap) (blocks fl live : List Nat) (hi : Inv s blocks fl live) :
    s.lo ∉ fl := by
  intro h
  have := (hi.layout.blk s.lo (hi.fl_blk s.lo h).1).2.1
  omega

theorem Inv.nodup_cycle (s : Heap) (blocks fl live : List Nat) (hi : Inv s blocks fl live) :
    (s.lo :: fl).Nodup :=
  List.nodup_cons.2 ⟨Inv.fl_lo s blocks fl live hi, hi.fl_nodup⟩

theorem Inv.fl_node (s : Heap) (blocks fl live : List Nat) (hi : Inv s blocks fl live) :
    ∀ x ∈ s.lo :: fl, x ∈ s.lo :: blocks := by
  intro x hx
  rcases List.mem_cons.1 hx with e | h
  · rw [e]; simp
  · exact List.mem_cons_of_mem _ (hi.fl_blk x h).1

theorem Inv.node_lt (s : Heap) (blocks : List Nat) (hl : Layout s blocks) :
    ∀ x ∈ s.lo :: blocks, x + 32 ≤ s.brk := by
  intro x hx
  rcases List.mem_cons.1 hx with e | h
  · rw [e]; exact hl.sent
  · have := hl.blk x h
    unfold IsBlock at this
    omega

theorem Inv.live_not_fl (s : Heap) (blocks fl live : List Nat) (hi : Inv s blocks fl live)
    (p : Nat) (hp : p ∈ live) : p - 32 ∉ fl := fun h =>
  (hi.fl_blk _ h).2 (hi.live_blk p hp).2.2

/-- A heap whose bounds and header fields are those of a well-formed heap is
well formed, with the same blocks, free list and live pointers. -/
theorem Inv_congr (s t : Heap) (blocks fl live : List Nat) (hi : Inv s blocks fl live)
    (h1 : t.lo = s.lo) (h2 : t.brk = s.brk) (h3 : t.max = s.max)
    (h4 : ∀ x ∈ s.lo :: blocks, size_of t x = size_of s x ∧ next_of t x = next_of s x ∧
      prev_of t x = prev_of s x) : Inv t blocks fl live where
  layout := Layout_frame s t blocks hi.layout h1 h2 h3 (h4 _ (by simp)).1 (by
    intro x hx
    rw [rsize_eq, rsize_eq, (h4 x (List.mem_cons_of_mem _ hx)).1])
  fl_nodup := hi.fl_nodup
  live_nodup := hi.live_nodup
  fl_blk := by
    intro h hh
    have := hi.fl_blk h hh
    unfold allocated at this ⊢
    rw [(h4 h (List.mem_cons_of_mem _ this.1)).1]
    exact this
  live_blk := by
    intro p hp
    have := hi.live_blk p hp
    unfold allocated at this ⊢
    rw [(h4 _ (List.mem_cons_of_mem _ this.2.1)).1]
    exact this
  cover := hi.cover
  linked := by
    rw [h1]
    refine Linked_frame s t s.lo fl s.lo hi.linked ?_ ?_
    · intro x hx; exact (h4 x (Inv.fl_node s blocks fl live hi x hx)).2.1
    · intro x hx
      refine (h4 x ?_).2.2
      rcases List.mem_append.1 hx with h | h
      · exact List.mem_cons_of_mem _ (hi.fl_blk x h).1
      · simp only [List.mem_singleton] at h
        rw [h]; simp

/-! ## `malloc` on a hit -/

theorem Linked_next_ne (s : Heap) (z : Nat) : ∀ (l : List Nat) (a : Nat), Linked s a l z →
    (a :: l).Nodup → z ∉ l → ∀ b ∈ l, next_of s b ≠ b := by
  intro l
  induction l with
  | nil => intro a _ _ _ b hb; simp at hb
  | cons c l ih =>
    intro a h hnd hz b hb
    simp only [Linked] at h
    have hnd2 : (c :: l).Nodup := (List.nodup_cons.1 hnd).2
    rcases List.mem_cons.1 hb with e | hb2
    · subst e
      have := Linked_next_mem s z b l b h.2.2 (by simp)
      intro e
      rw [e] at this
      rcases List.mem_append.1 this with h1 | h1
      · exact (List.nodup_cons.1 hnd2).1 h1
      · simp only [List.mem_singleton] at h1
        exact hz (by simp [h1])
    · exact ih c h.2.2 hnd2 (fun h2 => hz (List.mem_cons_of_mem _ h2)) b hb2

theorem mod_W (x : Nat) (h : x < W) : x % W = x := Nat.mod_eq_of_lt h

theorem next_lt (s : Heap) (x : Nat) : next_of s x < W := read64_lt _ _

theorem prev_lt (s : Heap) (x : Nat) : prev_of s x < W := read64_lt _ _

theorem size_lt (s : Heap) (x : Nat) : size_of s x < W := read64_lt _ _

/-- The nodes around a free block `b` are headers of the heap, and the
allocation flag of `b` can be set by adding one. -/
theorem hit_nodes (s : Heap) (blocks fl live : List Nat) (hi : Inv s blocks fl live)
    (b : Nat) (hb : b ∈ fl) :
    b ∈ s.lo :: blocks ∧ prev_of s b ∈ s.lo :: blocks ∧ next_of s b ∈ s.lo :: blocks ∧
    b ≠ prev_of s b ∧ size_of s b ||| 1 = size_of s b + 1 ∧ size_of s b + 1 < W := by
  have hbn : b ∈ s.lo :: blocks := List.mem_cons_of_mem _ (hi.fl_blk b hb).1
  have hpn : prev_of s b ∈ s.lo :: blocks :=
    Inv.fl_node s blocks fl live hi _
      (Linked_prev_mem s s.lo b fl s.lo hi.linked (List.mem_append_left _ hb))
  have hsn : next_of s b ∈ s.lo :: blocks := by
    have := Linked_next_mem s s.lo b fl s.lo hi.linked (List.mem_cons_of_mem _ hb)
    rcases List.mem_append.1 this with h | h
    · exact List.mem_cons_of_mem _ (hi.fl_blk _ h).1
    · simp only [List.mem_singleton] at h
      rw [h]; simp
  have hne : b ≠ prev_of s b := by
    intro e
    have h1 := Linked_next_prev s s.lo fl s.lo hi.linked b (List.mem_append_left _ hb)
    rw [← e] at h1
    exact Linked_next_ne s s.lo fl s.lo hi.linked (Inv.nodup_cycle s blocks fl live hi)
      (Inv.fl_lo s blocks fl live hi) b hb h1
  have hv : size_of s b ||| 1 = size_of s b + 1 := by
    rw [or_one_eq]
    have := (hi.fl_blk b hb).2
    unfold allocated at this
    omega
  have hvlt : size_of s b + 1 < W := by
    have := size_lt s b
    have := (hi.fl_blk b hb).2
    unfold allocated at this
    unfold W at *
    omega
  exact ⟨hbn, hpn, hsn, hne, hv, hvlt⟩

/-- The stores of a hit at the free block `b`, with the addresses and values
they are made with. -/
theorem hit_eq (s : Heap) (blocks fl live : List Nat) (hi : Inv s blocks fl live)
    (b : Nat) (hb : b ∈ fl) :
    hit s b = set_prev (set_next (set_size s b (size_of s b + 1)) (prev_of s b)
      (next_of s b)) (next_of s b) (prev_of s b) := by
  have hS := Layout.sep s blocks hi.layout
  obtain ⟨hbn, hpn, hsn, hne, hv, hvlt⟩ := hit_nodes s blocks fl live hi b hb
  have e1 : prev_of (set_size s b (size_of s b ||| 1)) b = prev_of s b :=
    prev_set_size _ _ _ _ (hS b hbn b hbn)
  have e2 : next_of (set_size s b (size_of s b ||| 1)) b = next_of s b :=
    next_set_size _ _ _ _ (hS b hbn b hbn)
  have e3 : next_of (set_next (set_size s b (size_of s b ||| 1)) (prev_of s b) (next_of s b)) b
      = next_of s b := by
    rw [next_set_next _ _ _ _ (hS _ hpn b hbn), if_neg hne, e2]
  have e4 : prev_of (set_next (set_size s b (size_of s b ||| 1)) (prev_of s b) (next_of s b)) b
      = prev_of s b := by
    rw [prev_set_next _ _ _ _ (hS _ hpn b hbn), e1]
  unfold hit
  simp only [e1, e2, e3, e4]
  rw [hv]

/-- The bounds and header fields after the stores of a hit at the free block
`b`. -/
theorem hit_fields (s : Heap) (blocks fl live : List Nat) (hi : Inv s blocks fl live)
    (b : Nat) (hb : b ∈ fl) :
    (hit s b).lo = s.lo ∧ (hit s b).brk = s.brk ∧ (hit s b).max = s.max ∧
    ∀ x ∈ s.lo :: blocks,
      size_of (hit s b) x = (if x = b then size_of s b + 1 else size_of s x) ∧
      next_of (hit s b) x = (if x = prev_of s b then next_of s b else next_of s x) ∧
      prev_of (hit s b) x = (if x = next_of s b then prev_of s b else prev_of s x) := by
  have hS := Layout.sep s blocks hi.layout
  obtain ⟨hbn, hpn, hsn, hne, hv, hvlt⟩ := hit_nodes s blocks fl live hi b hb
  rw [hit_eq s blocks fl live hi b hb]
  refine ⟨rfl, rfl, rfl, ?_⟩
  intro x hx
  refine ⟨?_, ?_, ?_⟩
  · rw [size_set_prev _ _ _ _ (hS _ hsn x hx), size_set_next _ _ _ _ (hS _ hpn x hx),
      size_set_size _ _ _ _ (hS _ hbn x hx), mod_W _ hvlt]
  · rw [next_set_prev _ _ _ _ (hS _ hsn x hx), next_set_next _ _ _ _ (hS _ hpn x hx),
      next_set_size _ _ _ _ (hS _ hbn x hx), mod_W _ (next_lt s b)]
  · rw [prev_set_prev _ _ _ _ (hS _ hsn x hx), prev_set_next _ _ _ _ (hS _ hpn x hx),
      prev_set_size _ _ _ _ (hS _ hbn x hx), mod_W _ (prev_lt s b)]

/-- A hit keeps the heap well formed: the block leaves the free list and its
payload pointer becomes live. -/
theorem hit_inv (s : Heap) (blocks fl live : List Nat) (hi : Inv s blocks fl live)
    (b : Nat) (hb : b ∈ fl) : Inv (hit s b) blocks (fl.erase b) ((b + 32) :: live) := by
  obtain ⟨h1, h2, h3, hf⟩ := hit_fields s blocks fl live hi b hb
  have hbf := hi.fl_blk b hb
  have hev : size_of s b % 2 = 0 := by
    have := hbf.2; unfold allocated at this; omega
  have hsz : ∀ x ∈ blocks, x ≠ b → size_of (hit s b) x = size_of s x := by
    intro x hx hne
    rw [(hf x (List.mem_cons_of_mem _ hx)).1, if_neg hne]
  have hszb : size_of (hit s b) b = size_of s b + 1 := by
    rw [(hf b (List.mem_cons_of_mem _ hbf.1)).1, if_pos rfl]
  have hlob : s.lo ≠ b := fun e => Inv.fl_lo s blocks fl live hi (e ▸ hb)
  refine
    { layout := Layout_frame s (hit s b) blocks hi.layout h1 h2 h3 ?_ ?_
      fl_nodup := hi.fl_nodup.erase b
      live_nodup := ?_
      fl_blk := ?_
      live_blk := ?_
      cover := ?_
      linked := ?_ }
  · rw [(hf s.lo (by simp)).1, if_neg hlob]
  · intro x hx
    rw [rsize_eq, rsize_eq]
    by_cases e : x = b
    · subst e; rw [hszb]; omega
    · rw [hsz x hx e]
  · refine List.nodup_cons.2 ⟨?_, hi.live_nodup⟩
    intro h
    have := (hi.live_blk _ h).2.2
    simp only [Nat.add_sub_cancel] at this
    exact hbf.2 this
  · intro h hh
    have hm := (hi.fl_nodup.mem_erase_iff).1 hh
    have := hi.fl_blk h hm.2
    refine ⟨this.1, ?_⟩
    unfold allocated at this ⊢
    rw [hsz h this.1 hm.1]
    exact this.2
  · intro p hp
    rcases List.mem_cons.1 hp with e | hp2
    · subst e
      simp only [Nat.add_sub_cancel]
      refine ⟨by omega, hbf.1, ?_⟩
      unfold allocated
      rw [hszb]; omega
    · have := hi.live_blk p hp2
      refine ⟨this.1, this.2.1, ?_⟩
      have hne : p - 32 ≠ b := fun e => hbf.2 (e ▸ this.2.2)
      unfold allocated at this ⊢
      rw [hsz _ this.2.1 hne]
      exact this.2.2
  · intro h hh
    rcases hi.cover h hh with c | c
    · by_cases e : h = b
      · right; rw [e]; simp
      · left; exact (hi.fl_nodup.mem_erase_iff).2 ⟨e, c⟩
    · right; exact List.mem_cons_of_mem _ c
  · rw [h1]
    refine Linked_unlink s (hit s b) s.lo b fl s.lo hi.linked hb
      (Inv.nodup_cycle s blocks fl live hi) (Inv.fl_lo s blocks fl live hi) ?_ ?_ ?_ ?_
    · have hpn : prev_of s b ∈ s.lo :: blocks :=
        Inv.fl_node s blocks fl live hi _
          (Linked_prev_mem s s.lo b fl s.lo hi.linked (List.mem_append_left _ hb))
      rw [(hf _ hpn).2.1, if_pos rfl]
    · have hsn : next_of s b ∈ s.lo :: blocks := by
        have := Linked_next_mem s s.lo b fl s.lo hi.linked (List.mem_cons_of_mem _ hb)
        rcases List.mem_append.1 this with h | h
        · exact List.mem_cons_of_mem _ (hi.fl_blk _ h).1
        · simp only [List.mem_singleton] at h
          rw [h]; simp
      rw [(hf _ hsn).2.2, if_pos rfl]
    · intro x hx hne
      rw [(hf x (Inv.fl_node s blocks fl live hi x hx)).2.1, if_neg hne]
    · intro x hx hne
      have hxn : x ∈ s.lo :: blocks := by
        rcases List.mem_append.1 hx with h | h
        · exact List.mem_cons_of_mem _ (hi.fl_blk _ h).1
        · simp only [List.mem_singleton] at h
          rw [h]; simp
      rw [(hf x hxn).2.2, if_neg hne]

/-! ## `free` -/

theorem Sep_self (a : Nat) : Sep a a := Or.inl rfl

theorem Inv.live_lt (s : Heap) (blocks fl live : List Nat) (hi : Inv s blocks fl live)
    (p : Nat) (hp : p ∈ live) : p < W ∧ sub64 p hdr_size = p - 32 := by
  have h := hi.live_blk p hp
  have hb := hi.layout.blk _ h.2.1
  have h1 := hi.layout.brk_le
  have h2 := hi.layout.max_lt
  unfold IsBlock at hb
  rw [hdr_size_eq]
  unfold sub64
  unfold W at *
  omega

theorem Inv.first_mem (s : Heap) (blocks fl live : List Nat) (hi : Inv s blocks fl live) :
    next_of s s.lo ∈ s.lo :: fl := by
  have := Linked_next_mem s s.lo s.lo fl s.lo hi.linked (by simp)
  rcases List.mem_append.1 this with h | h
  · exact List.mem_cons_of_mem _ h
  · simp only [List.mem_singleton] at h
    rw [h]; simp

/-- The stores of `free`, with the addresses and values they are made with,
when the header `h` behind the pointer is away from the sentinel. -/
theorem free_chain (s : Heap) (p h : Nat) (hh : sub64 p hdr_size = h) (h1 : Sep h s.lo)
    (hne : h ≠ s.lo) :
    free s p = set_prev (set_next (set_prev (set_next (set_size s h (size_of s h &&& NOT1)) h
      (next_of s s.lo)) h s.lo) s.lo h) (next_of s s.lo) h := by
  have h2 : Sep s.lo h := by unfold Sep at h1 ⊢; omega
  have e1 : next_of (set_size s h (size_of s h &&& NOT1)) s.lo = next_of s s.lo :=
    next_set_size _ _ _ _ h1
  have e2 : next_of (set_next (set_prev (set_next (set_size s h (size_of s h &&& NOT1)) h
      (next_of s s.lo)) h s.lo) s.lo h) h = next_of s s.lo := by
    rw [next_set_next _ _ _ _ h2, if_neg hne,
      next_set_prev _ _ _ _ (Sep_self _), next_set_next _ _ _ _ (Sep_self _), if_pos rfl,
      mod_W _ (next_lt _ _)]
  unfold free
  simp only [hh, mm_heap_lo, e1, e2]

/-- The bounds and header fields after `free` of the live pointer `p`. -/
theorem free_fields (s : Heap) (blocks fl live : List Nat) (hi : Inv s blocks fl live)
    (p : Nat) (hp : p ∈ live) :
    (free s p).lo = s.lo ∧ (free s p).brk = s.brk ∧ (free s p).max = s.max ∧
    ∀ x ∈ s.lo :: blocks,
      size_of (free s p) x = (if x = p - 32 then size_of s (p - 32) - 1 else size_of s x) ∧
      next_of (free s p) x = (if x = s.lo then p - 32 else if x = p - 32 then next_of s s.lo
        else next_of s x) ∧
      prev_of (free s p) x = (if x = next_of s s.lo then p - 32 else if x = p - 32 then s.lo
        else prev_of s x) := by
  have hS := Layout.sep s blocks hi.layout
  have hlv := hi.live_blk p hp
  have hhn : p - 32 ∈ s.lo :: blocks := List.mem_cons_of_mem _ hlv.2.1
  have hln : s.lo ∈ s.lo :: blocks := by simp
  have hfm := Inv.first_mem s blocks fl live hi
  have hfn : next_of s s.lo ∈ s.lo :: blocks := Inv.fl_node s blocks fl live hi _ hfm
  have hhlo : p - 32 ≠ s.lo := by
    have := (hi.layout.blk _ hlv.2.1).2.1; omega
  have hodd : size_of s (p - 32) % 2 = 1 := hlv.2.2
  have hv : size_of s (p - 32) &&& NOT1 = size_of s (p - 32) - 1 := by
    rw [and_not1 _ (size_lt _ _)]; omega
  have hvlt : size_of s (p - 32) - 1 < W := by
    have := size_lt s (p - 32); omega
  have hhW : p - 32 < W := by have := (Inv.live_lt s blocks fl live hi p hp).1; omega
  have hloW : s.lo < W := by
    have h1 := hi.layout.sent
    have h2 := hi.layout.brk_le
    have h3 := hi.layout.max_lt
    omega
  have eh := free_chain s p (p - 32) (Inv.live_lt s blocks fl live hi p hp).2
    (hS _ hhn _ hln) hhlo
  rw [eh]
  refine ⟨rfl, rfl, rfl, ?_⟩
  intro x hx
  refine ⟨?_, ?_, ?_⟩
  · rw [size_set_prev _ _ _ _ (hS _ hfn x hx), size_set_next _ _ _ _ (hS _ hln x hx),
      size_set_prev _ _ _ _ (hS _ hhn x hx), size_set_next _ _ _ _ (hS _ hhn x hx),
      size_set_size _ _ _ _ (hS _ hhn x hx), hv, mod_W _ hvlt]
  · rw [next_set_prev _ _ _ _ (hS _ hfn x hx), next_set_next _ _ _ _ (hS _ hln x hx),
      next_set_prev _ _ _ _ (hS _ hhn x hx), next_set_next _ _ _ _ (hS _ hhn x hx),
      next_set_size _ _ _ _ (hS _ hhn x hx), mod_W _ hhW, mod_W _ (next_lt _ _)]
  · rw [prev_set_prev _ _ _ _ (hS _ hfn x hx), prev_set_next _ _ _ _ (hS _ hln x hx),
      prev_set_prev _ _ _ _ (hS _ hhn x hx), prev_set_next _ _ _ _ (hS _ hhn x hx),
      prev_set_size _ _ _ _ (hS _ hhn x hx), mod_W _ hhW, mod_W _ hloW]

/-- A `free` of a live pointer keeps the heap well formed: the block is pushed
at the head of the free list and its pointer is no longer live. -/
theorem free_inv (s : Heap) (blocks fl live : List Nat) (hi : Inv s blocks fl live)
    (p : Nat) (hp : p ∈ live) : Inv (free s p) blocks ((p - 32) :: fl) (live.erase p) := by
  obtain ⟨h1, h2, h3, hf⟩ := free_fields s blocks fl live hi p hp
  have hlv := hi.live_blk p hp
  have hodd : size_of s (p - 32) % 2 = 1 := hlv.2.2
  have hnf := Inv.live_not_fl s blocks fl live hi p hp
  have hfm := Inv.first_mem s blocks fl live hi
  have hhlo : p - 32 ≠ s.lo := by
    have := (hi.layout.blk _ hlv.2.1).2.1; omega
  have hhfirst : p - 32 ≠ next_of s s.lo := by
    intro e
    rw [← e] at hfm
    rcases List.mem_cons.1 hfm with c | c
    · exact hhlo c
    · exact hnf c
  have hsz : ∀ x ∈ blocks, x ≠ p - 32 → size_of (free s p) x = size_of s x := by
    intro x hx hne
    rw [(hf x (List.mem_cons_of_mem _ hx)).1, if_neg hne]
  have hszb : size_of (free s p) (p - 32) = size_of s (p - 32) - 1 := by
    rw [(hf _ (List.mem_cons_of_mem _ hlv.2.1)).1, if_pos rfl]
  refine
    { layout := Layout_frame s (free s p) blocks hi.layout h1 h2 h3 ?_ ?_
      fl_nodup := List.nodup_cons.2 ⟨hnf, hi.fl_nodup⟩
      live_nodup := hi.live_nodup.erase p
      fl_blk := ?_
      live_blk := ?_
      cover := ?_
      linked := ?_ }
  · rw [(hf s.lo (by simp)).1, if_neg (Ne.symm hhlo)]
  · intro x hx
    rw [rsize_eq, rsize_eq]
    by_cases e : x = p - 32
    · rw [e, hszb]; omega
    · rw [hsz x hx e]
  · intro h hh
    rcases List.mem_cons.1 hh with e | hh2
    · rw [e]
      refine ⟨hlv.2.1, ?_⟩
      unfold allocated
      rw [hszb]; omega
    · have := hi.fl_blk h hh2
      refine ⟨this.1, ?_⟩
      have hne : h ≠ p - 32 := fun e => hnf (e ▸ hh2)
      unfold allocated at this ⊢
      rw [hsz h this.1 hne]
      exact this.2
  · intro q hq
    have hm := (hi.live_nodup.mem_erase_iff).1 hq
    have := hi.live_blk q hm.2
    refine ⟨this.1, this.2.1, ?_⟩
    have hne : q - 32 ≠ p - 32 := by
      have := hm.1
      have := hlv.1
      omega
    unfold allocated at this ⊢
    rw [hsz _ this.2.1 hne]
    exact this.2.2
  · intro h hh
    rcases hi.cover h hh with c | c
    · left; exact List.mem_cons_of_mem _ c
    · by_cases e : h + 32 = p
      · left; rw [← e]; simp
      · right; exact (hi.live_nodup.mem_erase_iff).2 ⟨e, c⟩
  · rw [h1]
    have hlo_n : s.lo ∈ s.lo :: blocks := by simp
    have hh_n : p - 32 ∈ s.lo :: blocks := List.mem_cons_of_mem _ hlv.2.1
    refine Linked_push s (free s p) s.lo s.lo (p - 32) fl hi.linked
      (Inv.nodup_cycle s blocks fl live hi) (Inv.fl_lo s blocks fl live hi) ?_ hhlo
      ?_ ?_ ?_ ?_ ?_ ?_
    · intro h
      rcases List.mem_cons.1 h with c | c
      · exact hhlo c
      · exact hnf c
    · rw [(hf _ hlo_n).2.1, if_pos rfl]
    · rw [(hf _ hh_n).2.2, if_neg hhfirst, if_pos rfl]
    · rw [(hf _ hh_n).2.1, if_neg hhlo, if_pos rfl]
    · rw [(hf _ (Inv.fl_node s blocks fl live hi _ hfm)).2.2, if_pos rfl]
    · intro x hx
      have hxlo : x ≠ s.lo := fun e => Inv.fl_lo s blocks fl live hi (e ▸ hx)
      have hxh : x ≠ p - 32 := fun e => hnf (e ▸ hx)
      rw [(hf x (List.mem_cons_of_mem _ (hi.fl_blk x hx).1)).2.1, if_neg hxlo, if_neg hxh]
    · intro x hx hne
      have hxn : x ∈ s.lo :: fl := by
        rcases List.mem_append.1 hx with h | h
        · exact List.mem_cons_of_mem _ h
        · simp only [List.mem_singleton] at h
          rw [h]; simp
      have hxh : x ≠ p - 32 := by
        intro e
        rw [e] at hxn
        rcases List.mem_cons.1 hxn with c | c
        · exact hhlo c
        · exact hnf c
      rw [(hf x (Inv.fl_node s blocks fl live hi x hxn)).2.2, if_neg hne, if_neg hxh]

/-! ## `malloc` on a miss, and `mm_init` -/

/-- The bounds and header fields after the heap was extended by `req` bytes. -/
theorem miss_fields (s : Heap) (blocks : List Nat) (hl : Layout s blocks) (req : Nat)
    (hreq : req % 16 = 0) (hmax : s.brk + req ≤ s.max) :
    (miss s req).lo = s.lo ∧ (miss s req).brk = s.brk + req ∧ (miss s req).max = s.max ∧
    size_of (miss s req) s.brk = req + 1 ∧
    ∀ x ∈ s.lo :: blocks, size_of (miss s req) x = size_of s x ∧
      next_of (miss s req) x = next_of s x ∧ prev_of (miss s req) x = prev_of s x := by
  have hv : req ||| 1 = req + 1 := by rw [or_one_eq]; omega
  have hlt : req + 1 < W := by
    have := hl.max_lt
    unfold W at *
    omega
  refine ⟨rfl, rfl, rfl, ?_, ?_⟩
  · unfold miss
    rw [size_set_size _ _ _ _ (Sep_self _), if_pos rfl, hv, mod_W _ hlt]
  · intro x hx
    have hxs : Sep s.brk x := by
      have := Inv.node_lt s blocks hl x hx
      unfold Sep; omega
    have hne : x ≠ s.brk := by
      have := Inv.node_lt s blocks hl x hx
      omega
    unfold miss
    refine ⟨?_, ?_, ?_⟩
    · rw [size_set_size _ _ _ _ hxs, if_neg hne]; rfl
    · rw [next_set_size _ _ _ _ hxs]; rfl
    · rw [prev_set_size _ _ _ _ hxs]; rfl

/-- A miss keeps the heap well formed: a new block is appended at the old
break and its payload pointer becomes live. -/
theorem miss_inv (s : Heap) (blocks fl live : List Nat) (hi : Inv s blocks fl live) (req : Nat)
    (hreq : req % 16 = 0) (h32 : 32 ≤ req) (hmax : s.brk + req ≤ s.max) :
    Inv (miss s req) (blocks ++ [s.brk]) fl ((s.brk + 32) :: live) := by
  obtain ⟨h1, h2, h3, hnew, hf⟩ := miss_fields s blocks hi.layout req hreq hmax
  have hl := hi.layout
  have hrs : ∀ x ∈ blocks, rsize (miss s req) x = rsize s x := by
    intro x hx
    rw [rsize_eq, rsize_eq, (hf x (List.mem_cons_of_mem _ hx)).1]
  have hrn : rsize (miss s req) s.brk = req := by
    rw [rsize_eq, hnew]; omega
  have hbnew : s.brk ∉ blocks := by
    intro h
    have := hl.blk _ h
    unfold IsBlock at this
    omega
  have hold : ∀ x ∈ blocks, IsBlock (miss s req) x := by
    intro x hx
    have := hl.blk x hx
    unfold IsBlock at this ⊢
    rw [h1, h2, hrs x hx]
    omega
  have hnewb : IsBlock (miss s req) s.brk := by
    unfold IsBlock
    rw [h1, h2, hrn]
    have := hl.brk_al
    have := hl.sent
    omega
  refine
    { layout :=
        { lo_al := by rw [h1]; exact hl.lo_al
          brk_al := by rw [h2]; have := hl.brk_al; omega
          sent := by rw [h1, h2]; have := hl.sent; omega
          brk_le := by rw [h2, h3]; exact hmax
          max_lt := by rw [h3]; exact hl.max_lt
          sent_size := by rw [h1, (hf s.lo (by simp)).1]; exact hl.sent_size
          tiles := by
            rw [h1]
            exact Tiles_append s (miss s req) (by rw [h2, hrn]) blocks _ hl.tiles hrs
          blk := ?_
          disj := ?_ }
      fl_nodup := hi.fl_nodup
      live_nodup := ?_
      fl_blk := ?_
      live_blk := ?_
      cover := ?_
      linked := ?_ }
  · intro h hh
    rcases List.mem_append.1 hh with c | c
    · exact hold h c
    · simp only [List.mem_singleton] at c
      rw [c]; exact hnewb
  · intro h hh k hk hlt
    rcases List.mem_append.1 hh with c | c <;> rcases List.mem_append.1 hk with d | d
    · rw [hrs h c]; exact hl.disj h c k d hlt
    · simp only [List.mem_singleton] at d
      have := hl.blk h c
      unfold IsBlock at this
      rw [hrs h c, d]; omega
    · simp only [List.mem_singleton] at c
      have := hl.blk k d
      unfold IsBlock at this
      omega
    · simp only [List.mem_singleton] at c d
      omega
  · refine List.nodup_cons.2 ⟨?_, hi.live_nodup⟩
    intro h
    have := (hi.live_blk _ h).2.1
    simp only [Nat.add_sub_cancel] at this
    exact hbnew this
  · intro h hh
    have := hi.fl_blk h hh
    refine ⟨List.mem_append_left _ this.1, ?_⟩
    unfold allocated at this ⊢
    rw [(hf h (List.mem_cons_of_mem _ this.1)).1]
    exact this.2
  · intro p hp
    rcases List.mem_cons.1 hp with e | hp2
    · subst e
      simp only [Nat.add_sub_cancel]
      refine ⟨by omega, by simp, ?_⟩
      unfold allocated
      rw [hnew]; omega
    · have := hi.live_blk p hp2
      refine ⟨this.1, List.mem_append_left _ this.2.1, ?_⟩
      unfold allocated at this ⊢
      rw [(hf _ (List.mem_cons_of_mem _ this.2.1)).1]
      exact this.2.2
  · intro h hh
    rcases List.mem_append.1 hh with c | c
    · rcases hi.cover h c with d | d
      · left; exact d
      · right; exact List.mem_cons_of_mem _ d
    · simp only [List.mem_singleton] at c
      right; rw [c]; simp
  · rw [h1]
    refine Linked_frame s (miss s req) s.lo fl s.lo hi.linked ?_ ?_
    · intro x hx; exact (hf x (Inv.fl_node s blocks fl live hi x hx)).2.1
    · intro x hx
      refine (hf x ?_).2.2
      rcases List.mem_append.1 hx with h | h
      · exact List.mem_cons_of_mem _ (hi.fl_blk x h).1
      · simp only [List.mem_singleton] at h
        rw [h]; simp

/-- The heap after a successful `mm_init` on an empty heap. -/
theorem mm_init_fields (s0 : Heap) (hbrk : s0.brk = s0.lo) (hmax : s0.lo + hdr_size ≤ s0.max)
    (hW : s0.max < W) :
    (mm_init s0).1 = true ∧ (mm_init s0).2.lo = s0.lo ∧ (mm_init s0).2.brk = s0.lo + 32 ∧
    (mm_init s0).2.max = s0.max ∧ size_of (mm_init s0).2 s0.lo = 32 ∧
    next_of (mm_init s0).2 s0.lo = s0.lo ∧ prev_of (mm_init s0).2 s0.lo = s0.lo := by
  rw [hdr_size_eq] at hmax
  have hlo : s0.lo < W := by omega
  have e : mm_sbrk s0 hdr_size = (s0.lo, { s0 with brk := s0.lo + 32 }) := by
    unfold mm_sbrk
    rw [hdr_size_eq, hbrk, if_pos hmax]
  have e32 : (32 : Nat) % W = 32 := by decide
  unfold mm_init
  simp only [e]
  refine ⟨trivial, rfl, rfl, rfl, ?_, ?_, ?_⟩
  · rw [size_set_prev _ _ _ _ (Sep_self _), size_set_next _ _ _ _ (Sep_self _),
      size_set_size _ _ _ _ (Sep_self _), if_pos rfl, hdr_size_eq, e32]
  · rw [next_set_prev _ _ _ _ (Sep_self _), next_set_next _ _ _ _ (Sep_self _), if_pos rfl,
      mod_W _ hlo]
  · rw [prev_set_prev _ _ _ _ (Sep_self _), if_pos rfl, mod_W _ hlo]

/-- A successful `mm_init` on an empty heap with an aligned base leaves a
well-formed heap with no block but the sentinel. -/
theorem mm_init_inv (s0 : Heap) (hlo : s0.lo % 16 = 0) (hbrk : s0.brk = s0.lo)
    (hmax : s0.lo + hdr_size ≤ s0.max) (hW : s0.max < W) : Inv (mm_init s0).2 [] [] [] := by
  obtain ⟨_, h1, h2, h3, h4, h5, h6⟩ := mm_init_fields s0 hbrk hmax hW
  rw [hdr_size_eq] at hmax
  refine
    { layout :=
        { lo_al := by rw [h1]; exact hlo
          brk_al := by rw [h2]; omega
          sent := by rw [h1, h2]
          brk_le := by rw [h2, h3]; exact hmax
          max_lt := by rw [h3]; exact hW
          sent_size := by rw [h1]; exact h4
          tiles := by simp only [Tiles]; rw [h1, h2]
          blk := by intro h hh; simp at hh
          disj := by intro h hh; simp at hh }
      fl_nodup := List.nodup_nil
      live_nodup := List.nodup_nil
      fl_blk := by intro h hh; simp at hh
      live_blk := by intro h hh; simp at hh
      cover := by intro h hh; simp at hh
      linked := by
        simp only [Linked]
        rw [h1]
        exact ⟨h5, h6⟩ }

/-! ## What `malloc` returns on a well-formed heap -/

theorem find_loop_mono (s : Heap) (req : Nat) : ∀ (f : Nat) (p x : Nat),
    find_loop s req f p = some x → ∀ g, f ≤ g → find_loop s req g p = some x := by
  intro f
  induction f with
  | zero => intro p x h; simp [find_loop] at h
  | succ f ih =>
    intro p x h g hg
    obtain ⟨g, rfl⟩ : ∃ k, g = k + 1 := ⟨g - 1, by omega⟩
    simp only [find_loop] at h ⊢
    by_cases c : p ≠ mm_heap_lo s ∧ size_of s p < req
    · rw [if_pos c] at h ⊢
      exact ih _ _ h g (by omega)
    · rw [if_neg c] at h ⊢
      exact h

/-- With a budget of one more step than the length of the free list the search
ends, at the first fit or at the sentinel. -/
theorem find_free_mem_spec (s : Heap) (blocks fl live : List Nat) (hi : Inv s blocks fl live)
    (req fuel : Nat) (hf : fl.length + 1 ≤ fuel) :
    find_free_mem fuel s req =
      some (if firstFit s req fl ≠ s.lo then firstFit s req fl else NULL) := by
  unfold find_free_mem
  simp only [mm_heap_lo]
  rw [find_loop_spec s req fl s.lo fuel (Linked_NextChain s s.lo fl s.lo hi.linked)
    (Inv.fl_lo s blocks fl live hi) hf]
  by_cases c : firstFit s req fl ≠ s.lo
  · simp only [if_pos c]
  · simp only [if_neg c]

/-- Whenever the search ends, it ends as it does with a large budget. -/
theorem find_free_mem_some (s : Heap) (blocks fl live : List Nat) (hi : Inv s blocks fl live)
    (req fuel x : Nat) (h : find_free_mem fuel s req = some x) :
    x = if firstFit s req fl ≠ s.lo then firstFit s req fl else NULL := by
  have h2 : find_free_mem (Nat.max fuel (fl.length + 1)) s req = some x := by
    unfold find_free_mem at h ⊢
    cases e : find_loop s req fuel (next_of s (mm_heap_lo s)) with
    | none => rw [e] at h; simp at h
    | some y =>
      rw [e] at h
      rw [find_loop_mono s req fuel _ y e _ (Nat.le_max_left _ _)]
      exact h
  rw [find_free_mem_spec s blocks fl live hi req _ (Nat.le_max_right _ _)] at h2
  exact (Option.some.inj h2).symm

theorem Inv.block_pos (s : Heap) (blocks : List Nat) (hl : Layout s blocks) (b : Nat)
    (hb : b ∈ blocks) : b ≠ NULL ∧ b ≠ s.lo ∧ add64 b hdr_size = b + 32 ∧ b + 32 < W := by
  have := hl.blk b hb
  have h1 := hl.brk_le
  have h2 := hl.max_lt
  unfold IsBlock at this
  rw [hdr_size_eq]
  unfold add64 NULL
  refine ⟨by omega, by omega, ?_, by omega⟩
  exact Nat.mod_eq_of_lt (by omega)

theorem malloc_of_found (s : Heap) (blocks fl live : List Nat) (hi : Inv s blocks fl live)
    (fuel size x : Nat) (hs : size ≠ 0)
    (h : find_free_mem fuel s (align (add64 size hdr_size)) = some x) :
    malloc fuel s size = some (mallocResult s fl size) := by
  have hx := find_free_mem_some s blocks fl live hi _ fuel x h
  unfold malloc mallocResult
  rw [if_neg hs]
  simp only [h]
  by_cases c : firstFit s (align (add64 size hdr_size)) fl ≠ s.lo
  · rw [if_pos c] at hx
    rcases firstFit_mem s (align (add64 size hdr_size)) fl with e | e
    · exact absurd e c
    · have hb := Inv.block_pos s blocks hi.layout _ (hi.fl_blk _ e.1).1
      rw [if_pos (by rw [hx]; exact hb.1), if_pos c, hx]
      rfl
  · rw [if_neg c] at hx
    rw [if_neg (by rw [hx]; simp), if_neg c]
    by_cases d : s.brk + align (add64 size hdr_size) ≤ s.max
    · have e : mm_sbrk s (align (add64 size hdr_size)) =
          (s.brk, { s with brk := s.brk + align (add64 size hdr_size) }) := by
        unfold mm_sbrk; rw [if_pos d]
      have hne : s.brk ≠ FAIL := by
        have := hi.layout.brk_al
        unfold FAIL W
        omega
      rw [if_pos d]
      simp only [e, if_neg hne]
      rfl
    · have e : mm_sbrk s (align (add64 size hdr_size)) = (FAIL, s) := by
        unfold mm_sbrk; rw [if_neg d]
      rw [if_neg d]
      simp only [e, if_true]

/-- On a well-formed heap `malloc` returns, for every budget larger than the
length of the free list. -/
theorem malloc_returns (s : Heap) (blocks fl live : List Nat) (hi : Inv s blocks fl live)
    (fuel size : Nat) (hs : size ≠ 0) (hf : fl.length + 1 ≤ fuel) :
    malloc fuel s size = some (mallocResult s fl size) :=
  malloc_of_found s blocks fl live hi fuel size _ hs
    (find_free_mem_spec s blocks fl live hi _ fuel hf)

/-- Whenever `malloc` returns for a non-zero size, it returns the result of
the first-fit search or of the heap extension. -/
theorem malloc_some (s : Heap) (blocks fl live : List Nat) (hi : Inv s blocks fl live)
    (fuel size : Nat) (hs : size ≠ 0) (r : Nat × Heap) (h : malloc fuel s size = some r) :
    r = mallocResult s fl size := by
  cases e : find_free_mem fuel s (align (add64 size hdr_size)) with
  | none =>
    unfold malloc at h
    rw [if_neg hs] at h
    simp only [e] at h
    simp at h
  | some x =>
    rw [malloc_of_found s blocks fl live hi fuel size x hs e] at h
    exact (Option.some.inj h).symm

theorem malloc_zero (fuel : Nat) (s : Heap) : malloc fuel s 0 = some (NULL, s) := by
  unfold malloc
  rw [if_pos rfl]

/-! ## The operations keep the heap well formed -/

/-- The three ways a `malloc` of a non-zero size ends on a well-formed heap. -/
theorem mallocResult_cases (s : Heap) (blocks fl live : List Nat) (hi : Inv s blocks fl live)
    (size : Nat) :
    (∃ b ∈ fl, align (add64 size hdr_size) ≤ size_of s b ∧
      b = firstFit s (align (add64 size hdr_size)) fl ∧
      mallocResult s fl size = (b + 32, hit s b)) ∨
    ((∀ b ∈ fl, size_of s b < align (add64 size hdr_size)) ∧
      s.brk + align (add64 size hdr_size) ≤ s.max ∧
      mallocResult s fl size = (add64 s.brk hdr_size, miss s (align (add64 size hdr_size)))) ∨
    ((∀ b ∈ fl, size_of s b < align (add64 size hdr_size)) ∧
      s.max < s.brk + align (add64 size hdr_size) ∧
      mallocResult s fl size = (NULL, s)) := by
  unfold mallocResult
  simp only
  by_cases c : firstFit s (align (add64 size hdr_size)) fl ≠ s.lo
  · left
    rcases firstFit_mem s (align (add64 size hdr_size)) fl with e | e
    · exact absurd e c
    · refine ⟨_, e.1, e.2, rfl, ?_⟩
      rw [if_pos c, (Inv.block_pos s blocks hi.layout _ (hi.fl_blk _ e.1).1).2.2.1]
  · right
    have hno := firstFit_lo s _ fl (Inv.fl_lo s blocks fl live hi) (not_not.1 c)
    rw [if_neg c]
    by_cases d : s.brk + align (add64 size hdr_size) ≤ s.max
    · left; rw [if_pos d]; exact ⟨hno, d, rfl⟩
    · right; rw [if_neg d]; exact ⟨hno, by omega, rfl⟩

theorem req_bounds (size : Nat) (h : fits size) (hs : size ≠ 0) :
    align (add64 size hdr_size) % 16 = 0 ∧ size + 32 ≤ align (add64 size hdr_size) ∧
    align (add64 size hdr_size) < size + 48 ∧ 48 ≤ align (add64 size hdr_size) := by
  rw [req_of_fits size h]
  omega

/-- A `malloc` whose size fits keeps the heap well formed; a non-null result
is 16-byte aligned, is the payload of an allocated block that has room for
`size` bytes, and becomes live. -/
theorem malloc_inv (s : Heap) (blocks fl live : List Nat) (hi : Inv s blocks fl live)
    (fuel size p : Nat) (t : Heap) (hfit : fits size) (h : malloc fuel s size = some (p, t)) :
    ∃ blocks2 fl2, Inv t blocks2 fl2 (addLive p live) ∧
      (p ≠ NULL → p % 16 = 0 ∧ p ∈ addLive p live ∧ p ∉ live ∧
        size + 32 ≤ rsize t (p - 32)) := by
  by_cases hs : size = 0
  · subst hs
    rw [malloc_zero] at h
    have e := Option.some.inj h
    have e1 : p = NULL := (congrArg Prod.fst e).symm
    have e2 : t = s := (congrArg Prod.snd e).symm
    subst e1 e2
    exact ⟨blocks, fl, by simpa [addLive] using hi, fun h => absurd rfl h⟩
  · have hr := malloc_some s blocks fl live hi fuel size hs _ h
    have hq := req_bounds size hfit hs
    rcases mallocResult_cases s blocks fl live hi size with ⟨b, hb, hsz, _, e⟩ | ⟨_, hmax, e⟩ |
      ⟨_, _, e⟩
    · rw [e] at hr
      have e1 : p = b + 32 := congrArg Prod.fst hr
      have e2 : t = hit s b := congrArg Prod.snd hr
      subst e1 e2
      have hi2 := hit_inv s blocks fl live hi b hb
      have hbb := hi.layout.blk b (hi.fl_blk b hb).1
      have hne : b + 32 ≠ NULL := by unfold NULL; omega
      refine ⟨blocks, fl.erase b, by simpa [addLive, hne] using hi2, fun _ => ⟨?_, ?_, ?_, ?_⟩⟩
      · unfold IsBlock at hbb; omega
      · simp [addLive, hne]
      · exact (List.nodup_cons.1 hi2.live_nodup).1
      · have hev := (hi.fl_blk b hb).2
        unfold allocated at hev
        have := (hit_fields s blocks fl live hi b hb).2.2.2 b
          (List.mem_cons_of_mem _ (hi.fl_blk b hb).1)
        simp only [Nat.add_sub_cancel]
        rw [rsize_eq, this.1, if_pos rfl]
        omega
    · rw [e] at hr
      have hbW : s.brk + 32 < W := by
        have := hi.layout.max_lt; omega
      have ea : add64 s.brk hdr_size = s.brk + 32 := by
        rw [hdr_size_eq]; unfold add64; exact Nat.mod_eq_of_lt hbW
      rw [ea] at hr
      have e1 : p = s.brk + 32 := congrArg Prod.fst hr
      have e2 : t = miss s (align (add64 size hdr_size)) := congrArg Prod.snd hr
      subst e1 e2
      have hi2 := miss_inv s blocks fl live hi _ hq.1 (by omega) hmax
      have hne : s.brk + 32 ≠ NULL := by unfold NULL; omega
      refine ⟨blocks ++ [s.brk], fl, by simpa [addLive, hne] using hi2,
        fun _ => ⟨?_, ?_, ?_, ?_⟩⟩
      · have := hi.layout.brk_al; omega
      · simp [addLive, hne]
      · exact (List.nodup_cons.1 hi2.live_nodup).1
      · have := (miss_fields s blocks hi.layout _ hq.1 hmax).2.2.2.1
        simp only [Nat.add_sub_cancel]
        rw [rsize_eq, this]
        omega
    · rw [e] at hr
      have e1 : p = NULL := congrArg Prod.fst hr
      have e2 : t = s := congrArg Prod.snd hr
      subst e1 e2
      exact ⟨blocks, fl, by simpa [addLive] using hi, fun h => absurd rfl h⟩

theorem mm_memcpy_out : ∀ (n : Nat) (m : Nat → Nat) (dst src x : Nat),
    (x < dst ∨ dst + n ≤ x) → mm_memcpy m dst src n x = m x := by
  intro n
  induction n with
  | zero => intro m dst src x _; rfl
  | succ n ih =>
    intro m dst src x h
    simp only [mm_memcpy]
    rw [ih _ _ _ _ (by omega), if_neg (by omega)]

theorem mm_memcpy_self : ∀ (n : Nat) (m : Nat → Nat) (a : Nat), mm_memcpy m a a n = m := by
  intro n
  induction n with
  | zero => intro m a; rfl
  | succ n ih =>
    intro m a
    simp only [mm_memcpy]
    have e : (fun x => if x = a then m a else m x) = m := by
      funext x
      by_cases c : x = a
      · rw [if_pos c, c]
      · rw [if_neg c]
    rw [e]
    exact ih m (a + 1)

theorem memset_out (m : Nat → Nat) (dst c n x : Nat) (h : x < dst ∨ dst + n ≤ x) :
    memset m dst c n x = m x := by
  unfold memset
  rw [if_neg (by omega)]

/-- Stores into the payload of a live block keep the heap well formed. -/
theorem payload_frame (s : Heap) (blocks fl live : List Nat) (hi : Inv s blocks fl live)
    (q n : Nat) (hq : q ∈ live) (hn : n + 32 ≤ rsize s (q - 32)) (m : Nat → Nat)
    (hm : ∀ a, (a < q ∨ q + n ≤ a) → m a = s.mem a) :
    Inv { s with mem := m } blocks fl live := by
  have hlv := hi.live_blk q hq
  have hS := Layout.sep s blocks hi.layout
  refine Inv_congr s _ blocks fl live hi rfl rfl rfl ?_
  intro x hx
  have hout : ∀ a, x ≤ a → a < x + 24 → m a = s.mem a := by
    intro a h1 h2
    apply hm
    rcases List.mem_cons.1 hx with e | hb
    · have := (hi.layout.blk _ hlv.2.1).2.1
      omega
    · rcases Nat.lt_trichotomy x (q - 32) with c | c | c
      · have := hi.layout.disj x hb _ hlv.2.1 c
        have := (hi.layout.blk x hb).2.2.1
        omega
      · omega
      · have := hi.layout.disj _ hlv.2.1 x hb c
        omega
  refine ⟨?_, ?_, ?_⟩
  · exact read64_congr _ _ _ (fun a h1 h2 => hout a h1 (by omega))
  · exact read64_congr _ _ _ (fun a h1 h2 => hout a (by omega) (by omega))
  · exact read64_congr _ _ _ (fun a h1 h2 => hout a (by omega) (by omega))

theorem copy_size_le (s : Heap) (h size : Nat) : copy_size s h size ≤ size := by
  unfold copy_size
  simp only
  split <;> omega

theorem Inv.null_not_live (s : Heap) (blocks fl live : List Nat) (hi : Inv s blocks fl live) :
    NULL ∉ live := by
  intro h
  have := (hi.live_blk _ h).1
  unfold NULL at this
  omega

/-- A `realloc` whose size fits, of `NULL` or of a live pointer, keeps the heap
well formed: the old pointer is no longer live and a non-null result is. -/
theorem realloc_inv (s : Heap) (blocks fl live : List Nat) (hi : Inv s blocks fl live)
    (fuel size p q : Nat) (t : Heap) (hp : p = NULL ∨ p ∈ live) (hfit : fits size)
    (h : realloc fuel s p size = some (q, t)) :
    ∃ blocks2 fl2, Inv t blocks2 fl2 (addLive q (live.erase p)) := by
  unfold realloc at h
  by_cases c : p = NULL
  · rw [if_pos c] at h
    obtain ⟨b2, f2, hi2, _⟩ := malloc_inv s blocks fl live hi fuel size q t hfit h
    rw [c, List.erase_of_not_mem (Inv.null_not_live s blocks fl live hi)]
    exact ⟨b2, f2, hi2⟩
  · have hpl : p ∈ live := by
      rcases hp with e | e
      · exact absurd e c
      · exact e
    have hfr := free_inv s blocks fl live hi p hpl
    rw [if_neg c] at h
    by_cases z : size = 0
    · rw [if_pos z] at h
      have e := Option.some.inj h
      have e1 : q = NULL := (congrArg Prod.fst e).symm
      have e2 : t = free s p := (congrArg Prod.snd e).symm
      subst e1 e2
      exact ⟨blocks, (p - 32) :: fl, by simpa [addLive] using hfr⟩
    · rw [if_neg z] at h
      simp only at h
      cases e : malloc fuel (free s p) size with
      | none => rw [e] at h; simp at h
      | some r =>
        obtain ⟨ptr, s2⟩ := r
        rw [e] at h
        simp only at h
        obtain ⟨b2, f2, hi2, hpost⟩ :=
          malloc_inv (free s p) blocks ((p - 32) :: fl) (live.erase p) hfr fuel size ptr s2 hfit e
        by_cases n : ptr = NULL
        · rw [if_pos n] at h
          have e0 := Option.some.inj h
          have e1 : q = NULL := (congrArg Prod.fst e0).symm
          have e2 : t = s2 := (congrArg Prod.snd e0).symm
          subst e1 e2
          rw [n] at hi2
          exact ⟨b2, f2, hi2⟩
        · rw [if_neg n] at h
          have e0 := Option.some.inj h
          have e1 : q = ptr := (congrArg Prod.fst e0).symm
          have e2 : t = { s2 with
              mem := mm_memcpy s2.mem ptr p (copy_size s2 (sub64 p hdr_size) size) } :=
            (congrArg Prod.snd e0).symm
          subst e1 e2
          have hq := hpost n
          have hle := copy_size_le s2 (sub64 p hdr_size) size
          exact ⟨b2, f2, payload_frame s2 b2 f2 _ hi2 q _ hq.2.1 (by omega) _
            (fun a ha => mm_memcpy_out _ _ _ _ _ ha)⟩

theorem mul64_of_fits (nmemb size : Nat) (h : fits (nmemb * size)) :
    mul64 size nmemb = nmemb * size := by
  unfold fits at h
  unfold mul64
  rw [Nat.mul_comm]
  exact Nat.mod_eq_of_lt (by omega)

/-- A `calloc` whose product fits keeps the heap well formed; the result is
that of `malloc` with the bytes of the payload set to zero. -/
theorem calloc_inv (s : Heap) (blocks fl live : List Nat) (hi : Inv s blocks fl live)
    (fuel nmemb size p : Nat) (t : Heap) (hfit : fits (nmemb * size))
    (h : calloc fuel s nmemb size = some (p, t)) :
    ∃ blocks2 fl2, Inv t blocks2 fl2 (addLive p live) ∧
      (p ≠ NULL → p % 16 = 0 ∧ p ∈ addLive p live ∧ p ∉ live ∧
        nmemb * size + 32 ≤ rsize t (p - 32) ∧
        ∀ a, p ≤ a → a < p + nmemb * size → t.mem a = 0) := by
  unfold calloc at h
  simp only [mul64_of_fits nmemb size hfit] at h
  cases e : malloc fuel s (nmemb * size) with
  | none => rw [e] at h; simp at h
  | some r =>
    obtain ⟨ptr, s1⟩ := r
    rw [e] at h
    simp only at h
    obtain ⟨b2, f2, hi2, hpost⟩ := malloc_inv s blocks fl live hi fuel _ ptr s1 hfit e
    by_cases n : ptr = NULL
    · rw [if_neg (by simpa using n)] at h
      have e0 := Option.some.inj h
      have e1 : p = ptr := (congrArg Prod.fst e0).symm
      have e2 : t = s1 := (congrArg Prod.snd e0).symm
      subst e1 e2
      exact ⟨b2, f2, hi2, fun h => absurd n h⟩
    · rw [if_pos n] at h
      have e0 := Option.some.inj h
      have e1 : p = ptr := (congrArg Prod.fst e0).symm
      have e2 : t = { s1 with mem := memset s1.mem ptr 0 (nmemb * size) } :=
        (congrArg Prod.snd e0).symm
      subst e1 e2
      have hq := hpost n
      have hi3 := payload_frame s1 b2 f2 _ hi2 p (nmemb * size) hq.2.1 (by omega)
        (memset s1.mem p 0 (nmemb * size)) (fun a ha => memset_out _ _ _ _ _ ha)
      refine ⟨b2, f2, hi3, fun _ => ⟨hq.1, hq.2.1, hq.2.2.1, ?_, ?_⟩⟩
      · have hS := (hi2.live_blk p hq.2.1)
        have : size_of { s1 with mem := memset s1.mem p 0 (nmemb * size) } (p - 32)
            = size_of s1 (p - 32) := by
          unfold size_of
          exact read64_congr _ _ _ (fun a h1 h2 => memset_out _ _ _ _ _ (by omega))
        rw [rsize_eq, this, ← rsize_eq]
        exact hq.2.2.2
      · intro a h1 h2
        show memset s1.mem p 0 (nmemb * size) a = 0
        unfold memset
        rw [if_pos ⟨h1, h2⟩]

/-- Every heap reached by calls whose sizes fit is well formed. -/
theorem Reach_inv (s : Heap) (live : List Nat) (h : Reach fits s live) : WellFormed s live := by
  induction h with
  | init s0 hlo hbrk hmax hW => exact ⟨[], [], mm_init_inv s0 hlo hbrk hmax hW⟩
  | malloc fuel size p s t live _ hok hm ih =>
    obtain ⟨b, f, hi⟩ := ih
    obtain ⟨b2, f2, hi2, _⟩ := malloc_inv s b f live hi fuel size p t hok hm
    exact ⟨b2, f2, hi2⟩
  | free p s live _ hp ih =>
    obtain ⟨b, f, hi⟩ := ih
    exact ⟨b, _, free_inv s b f live hi p hp⟩
  | realloc fuel size p q s t live _ hp hok hm ih =>
    obtain ⟨b, f, hi⟩ := ih
    exact realloc_inv s b f live hi fuel size p q t hp hok hm
  | calloc fuel nmemb size p s t live _ hok hm ih =>
    obtain ⟨b, f, hi⟩ := ih
    obtain ⟨b2, f2, hi2, _⟩ := calloc_inv s b f live hi fuel nmemb size p t hok hm
    exact ⟨b2, f2, hi2⟩

/-! ## C1: the pointer returned by `malloc` -/

/-- A call that returned, returned `ret` and left the heap `after`. -/
theorem ret_after (o : Option (Nat × Heap)) (h : o.isSome = true) : o = some (ret o, after o) := by
  cases o with
  | none => simp at h
  | some x => rfl

/-- The heap just after `mm_init` is reached, whatever the sizes allowed. -/
theorem Reach_heap1 (ok : Nat → Prop) : Reach ok heap1 [] :=
  Reach.init heap0 (by decide) (by decide) (by decide) (by decide)

/-- C1, as amended: in a heap reached from `mm_init` by calls whose sizes fit
(`size + hdr_size + 15 < 2^64`), a `malloc` of a size `S ≥ 1` that fits returns
for every large enough budget, and when it returns a non-null pointer `p`, then
`p` is a multiple of 16 and the first and the last byte of `[p, p+S)` lie
between `mm_heap_lo()` and `mm_heap_hi()` of the heap after the call. -/
theorem C1_malloc_aligned_in_heap (s : Heap) (live : List Nat) (hr : Reach fits s live)
    (S : Nat) (hS : 1 ≤ S) (hfit : fits S) :
    (∃ n, ∀ fuel, n ≤ fuel → (malloc fuel s S).isSome = true) ∧
    ∀ fuel p t, malloc fuel s S = some (p, t) → p ≠ NULL →
      p % 16 = 0 ∧ mm_heap_lo t ≤ p ∧ p + S - 1 ≤ mm_heap_hi t := by
  obtain ⟨blocks, fl, hi⟩ := Reach_inv s live hr
  refine ⟨⟨fl.length + 1, fun fuel hf => ?_⟩, ?_⟩
  · rw [malloc_returns s blocks fl live hi fuel S (by omega) hf]; rfl
  · intro fuel p t hm hp
    obtain ⟨b2, f2, hi2, hpost⟩ := malloc_inv s blocks fl live hi fuel S p t hfit hm
    obtain ⟨h1, h2, _, h4⟩ := hpost hp
    have hlv := hi2.live_blk p h2
    have hb := hi2.layout.blk _ hlv.2.1
    unfold IsBlock at hb
    unfold mm_heap_lo mm_heap_hi
    refine ⟨h1, by omega, by omega⟩

/-- An instance of C1: `malloc(100)` on the heap just after `mm_init`. -/
theorem C1_witness :
    Reach fits heap1 [] ∧ 1 ≤ 100 ∧ fits 100 ∧
    (ret (malloc 1 heap1 100) % 16 = 0 ∧
      mm_heap_lo (after (malloc 1 heap1 100)) ≤ ret (malloc 1 heap1 100) ∧
      ret (malloc 1 heap1 100) + 100 - 1 ≤ mm_heap_hi (after (malloc 1 heap1 100))) :=
  ⟨Reach_heap1 fits, by decide, by decide,
    (C1_malloc_aligned_in_heap heap1 [] (Reach_heap1 fits) 100 (by decide) (by decide)).2 1 _ _
      (ret_after _ (by decide)) (by decide)⟩

/-- The heap `heapA3` is reached by calls of any size. -/
theorem Reach_heapA3 : Reach anySize heapA3 [] := by
  have r1 := Reach.malloc 1 (2 ^ 64 - 31) _ heap1 _ [] (Reach_heap1 anySize) trivial
    (ret_after (malloc 1 heap1 (2 ^ 64 - 31)) (by decide))
  have e1 : addLive (ret (malloc 1 heap1 (2 ^ 64 - 31))) [] = [4160] := by decide
  rw [e1] at r1
  have r2 := Reach.malloc 1 1 _ heapA1 _ [4160] r1 trivial
    (ret_after (malloc 1 heapA1 1) (by decide))
  have e2 : addLive (ret (malloc 1 heapA1 1)) [4160] = [4176, 4160] := by decide
  rw [e2] at r2
  have r3 := Reach.free 4160 _ _ r2 (by decide)
  have r4 := Reach.free 4176 _ _ r3 (by decide)
  exact r4

/-- C1 fails as stated. On the heap just after `mm_init`, `malloc(2^64 - 47)`
returns the non-null pointer 4160 while the heap ends at 4127. And after
`malloc(2^64 - 31)`, `malloc(1)` and the `free` of both pointers, `malloc(1000)`
returns 4176 while the heap ends at 4191, so the last payload byte is outside
the heap. -/
theorem C1_counterexample :
    (Reach anySize heap1 [] ∧
      (malloc 1 heap1 (2 ^ 64 - 47)).map (fun r => (r.1, mm_heap_lo r.2, mm_heap_hi r.2))
        = some (4160, 4096, 4127)) ∧
    (Reach anySize heapA3 [] ∧
      (malloc 3 heapA3 1000).map (fun r => (r.1, mm_heap_lo r.2, mm_heap_hi r.2))
        = some (4176, 4096, 4191)) :=
  ⟨⟨Reach_heap1 anySize, by decide⟩, ⟨Reach_heapA3, by decide⟩⟩

/-! ## C2 and C3: `free` followed by `malloc` -/

/-- The heap `heapM` is reached by calls whose sizes fit. -/
theorem Reach_heapM : Reach fits heapM [4160] := by
  have r1 := Reach.malloc 1 100 _ heap1 _ [] (Reach_heap1 fits) (by decide)
    (ret_after (malloc 1 heap1 100) (by decide))
  have e1 : addLive (ret (malloc 1 heap1 100)) [] = [4160] := by decide
  rw [e1] at r1
  exact r1

/-- When the first node of the free list is large enough, the search ends at
it after one step. -/
theorem find_first (u : Heap) (req fuel : Nat) (hf : 1 ≤ fuel)
    (hsz : req ≤ size_of u (next_of u u.lo)) (hlo : next_of u u.lo ≠ u.lo) :
    find_free_mem fuel u req = some (next_of u u.lo) := by
  obtain ⟨f, rfl⟩ : ∃ f, fuel = f + 1 := ⟨fuel - 1, by omega⟩
  unfold find_free_mem
  simp only [mm_heap_lo, find_loop]
  rw [if_neg (by omega)]
  simp only [if_pos hlo]

theorem malloc_first (u : Heap) (S fuel : Nat) (hS : S ≠ 0) (hf : 1 ≤ fuel)
    (hsz : align (add64 S hdr_size) ≤ size_of u (next_of u u.lo))
    (hlo : next_of u u.lo ≠ u.lo) (h0 : next_of u u.lo ≠ NULL) :
    malloc fuel u S = some (add64 (next_of u u.lo) hdr_size, hit u (next_of u u.lo)) := by
  unfold malloc
  rw [if_neg hS]
  simp only [find_first u _ fuel hf hsz hlo, if_pos h0]
  rfl

theorem hit_brk (u : Heap) (h : Nat) : (hit u h).brk = u.brk := rfl

/-- After `free`, the block is the first node of the free list and its size
field is its masked size. -/
theorem free_head (t : Heap) (p h : Nat) (hh : sub64 p hdr_size = h) (hW : h < W)
    (h1 : Sep h t.lo) (hne : h ≠ t.lo) (h2 : Sep (next_of t t.lo) t.lo)
    (h3 : Sep (next_of t t.lo) h) :
    next_of (free t p) (free t p).lo = h ∧ size_of (free t p) h = 2 * (size_of t h / 2) ∧
    (free t p).brk = t.brk ∧ (free t p).lo = t.lo := by
  have h4 : Sep t.lo h := by unfold Sep at h1 ⊢; omega
  rw [free_chain t p h hh h1 hne]
  refine ⟨?_, ?_, rfl, rfl⟩
  · show next_of _ t.lo = h
    rw [next_set_prev _ _ _ _ h2, next_set_next _ _ _ _ (Sep_self _), if_pos rfl, mod_W _ hW]
  · rw [size_set_prev _ _ _ _ h3, size_set_next _ _ _ _ h4, size_set_prev _ _ _ _ (Sep_self _),
      size_set_next _ _ _ _ (Sep_self _), size_set_size _ _ _ _ (Sep_self _), if_pos rfl,
      and_not1 _ (size_lt _ _)]
    have := size_lt t h
    exact mod_W _ (by omega)

theorem set_mem_out (s : Heap) (h v a : Nat) :
    ((a < h ∨ h + 8 ≤ a) → (set_size s h v).mem a = s.mem a) ∧
    ((a < h + 8 ∨ h + 16 ≤ a) → (set_next s h v).mem a = s.mem a) ∧
    ((a < h + 16 ∨ h + 24 ≤ a) → (set_prev s h v).mem a = s.mem a) :=
  ⟨fun c => write64_out _ _ _ _ c, fun c => write64_out _ _ _ _ (by omega),
    fun c => write64_out _ _ _ _ (by omega)⟩

/-- A `free` of a live pointer stores into headers only. -/
theorem free_mem_out (s : Heap) (blocks fl live : List Nat) (hi : Inv s blocks fl live)
    (p : Nat) (hp : p ∈ live) (a : Nat) (hout : ∀ x ∈ s.lo :: blocks, a < x ∨ x + 24 ≤ a) :
    (free s p).mem a = s.mem a := by
  have hS := Layout.sep s blocks hi.layout
  have hlv := hi.live_blk p hp
  have hhn : p - 32 ∈ s.lo :: blocks := List.mem_cons_of_mem _ hlv.2.1
  have hln : s.lo ∈ s.lo :: blocks := by simp
  have hfn : next_of s s.lo ∈ s.lo :: blocks :=
    Inv.fl_node s blocks fl live hi _ (Inv.first_mem s blocks fl live hi)
  have hhlo : p - 32 ≠ s.lo := by
    have := (hi.layout.blk _ hlv.2.1).2.1; omega
  rw [free_chain s p (p - 32) (Inv.live_lt s blocks fl live hi p hp).2 (hS _ hhn _ hln) hhlo]
  have o1 := hout _ hhn
  have o2 := hout _ hln
  have o3 := hout _ hfn
  rw [(set_mem_out _ _ _ a).2.2 (by omega), (set_mem_out _ _ _ a).2.1 (by omega),
    (set_mem_out _ _ _ a).2.2 (by omega), (set_mem_out _ _ _ a).2.1 (by omega),
    (set_mem_out _ _ _ a).1 (by omega)]

/-- A hit stores into headers only. -/
theorem hit_mem_out (s : Heap) (blocks fl live : List Nat) (hi : Inv s blocks fl live)
    (b : Nat) (hb : b ∈ fl) (a : Nat) (hout : ∀ x ∈ s.lo :: blocks, a < x ∨ x + 24 ≤ a) :
    (hit s b).mem a = s.mem a := by
  obtain ⟨hbn, hpn, hsn, _, _, _⟩ := hit_nodes s blocks fl live hi b hb
  rw [hit_eq s blocks fl live hi b hb]
  have o1 := hout _ hbn
  have o2 := hout _ hpn
  have o3 := hout _ hsn
  rw [(set_mem_out _ _ _ a).2.2 (by omega), (set_mem_out _ _ _ a).2.1 (by omega),
    (set_mem_out _ _ _ a).1 (by omega)]

/-- The bytes of a block after its header are in no header. -/
theorem payload_out (s : Heap) (blocks : List Nat) (hl : Layout s blocks) (h : Nat)
    (hh : h ∈ blocks) (a : Nat) (h1 : h + 32 ≤ a) (h2 : a < h + rsize s h) :
    ∀ x ∈ s.lo :: blocks, a < x ∨ x + 24 ≤ a := by
  intro x hx
  rcases List.mem_cons.1 hx with e | hb
  · have := (hl.blk _ hh).2.1
    omega
  · rcases Nat.lt_trichotomy x h with c | c | c
    · have := hl.disj x hb _ hh c
      have := (hl.blk x hb).2.2.1
      omega
    · omega
    · have := hl.disj _ hh x hb c
      omega

/-- C2: on a well-formed heap, for a live pointer `p` whose block has masked
size `R` and a size `S` with `1 ≤ S ≤ R - hdr_size`, `realloc(p, S)` returns
(for every budget of at least one step) a non-null pointer `q`, and the first
`S` bytes at `q` after the call are the first `S` bytes at `p` before it. -/
theorem C2_realloc_keeps_bytes (s : Heap) (live : List Nat) (hw : WellFormed s live)
    (p : Nat) (hp : p ∈ live) (S : Nat) (hS1 : 1 ≤ S)
    (hS2 : S ≤ rsize s (p - hdr_size) - hdr_size) (fuel : Nat) (hf : 1 ≤ fuel) :
    ∃ q t, realloc fuel s p S = some (q, t) ∧ q ≠ NULL ∧
      ∀ i, i < S → t.mem (q + i) = s.mem (p + i) := by
  obtain ⟨blocks, fl, hi⟩ := hw
  rw [hdr_size_eq] at hS2
  have hlv := hi.live_blk p hp
  have hb := hi.layout.blk _ hlv.2.1
  have hfr := free_inv s blocks fl live hi p hp
  obtain ⟨f1, f2, f3, ff⟩ := free_fields s blocks fl live hi p hp
  have hhn : p - 32 ∈ s.lo :: blocks := List.mem_cons_of_mem _ hlv.2.1
  have hodd : size_of s (p - 32) % 2 = 1 := hlv.2.2
  have hR := rsize_eq s (p - 32)
  have hsz1 : size_of (free s p) (p - 32) = rsize s (p - 32) := by
    rw [(ff _ hhn).1, if_pos rfl, hR]; omega
  have hnx : next_of (free s p) (free s p).lo = p - 32 := by
    rw [f1, (ff _ (by simp)).2.1, if_pos rfl]
  have hbp := Inv.block_pos s blocks hi.layout _ hlv.2.1
  have hpe : add64 (p - 32) hdr_size = p := by rw [hbp.2.2.1]; omega
  have hpn : p ≠ NULL := by unfold NULL; omega
  unfold IsBlock at hb
  have hfit : fits S := by
    have h1 := hi.layout.brk_le
    have h2 := hi.layout.max_lt
    unfold fits
    rw [hdr_size_eq]
    omega
  have hreq : align (add64 S hdr_size) ≤ size_of (free s p) (next_of (free s p) (free s p).lo) := by
    rw [hnx, hsz1, req_of_fits S hfit]
    omega
  have hm := malloc_first (free s p) S fuel (by omega) hf hreq (by rw [hnx, f1]; exact hbp.2.1)
    (by rw [hnx]; exact hbp.1)
  rw [hnx, hpe] at hm
  have hre : realloc fuel s p S = some (p, { hit (free s p) (p - 32) with
      mem := mm_memcpy (hit (free s p) (p - 32)).mem p p
        (copy_size (hit (free s p) (p - 32)) (sub64 p hdr_size) S) }) := by
    unfold realloc
    rw [if_neg hpn, if_neg (by omega)]
    simp only [hm, if_neg hpn]
  refine ⟨p, _, hre, hpn, ?_⟩
  intro i hi2
  dsimp only
  have hout := payload_out s blocks hi.layout (p - 32) hlv.2.1 (p + i) (by omega) (by omega)
  rw [mm_memcpy_self, hit_mem_out (free s p) blocks _ _ hfr (p - 32) (by simp) (p + i)
    (by rw [f1]; exact hout), free_mem_out s blocks fl live hi p hp (p + i) hout]

/-- An instance of C2: `realloc(4160, 100)` on the heap after `mm_init` and
`malloc(100)`, whose only block has masked size 144. -/
theorem C2_witness :
    WellFormed heapM [4160] ∧ 4160 ∈ [4160] ∧ 1 ≤ 100 ∧
    100 ≤ rsize heapM (4160 - hdr_size) - hdr_size ∧ 1 ≤ 1 ∧
    ∃ q t, realloc 1 heapM 4160 100 = some (q, t) ∧ q ≠ NULL ∧
      ∀ i, i < 100 → t.mem (q + i) = heapM.mem (4160 + i) :=
  ⟨Reach_inv _ _ Reach_heapM, by decide, by decide, by decide, by decide,
    C2_realloc_keeps_bytes heapM [4160] (Reach_inv _ _ Reach_heapM) 4160 (by decide) 100
      (by decide) (by decide) 1 (by decide)⟩

/-- C3: on a well-formed heap, when `malloc(S)` with `S ≥ 1` has returned a
non-null pointer `p`, then after `free(p)` a second `malloc(S)` returns (for
every budget of at least one step) the same `p` and leaves the break where it
was. -/
theorem C3_free_then_malloc_same (s : Heap) (live : List Nat) (hw : WellFormed s live)
    (S : Nat) (hS : 1 ≤ S) (fuel p : Nat) (t : Heap) (hm : malloc fuel s S = some (p, t))
    (hp : p ≠ NULL) (fuel2 : Nat) (hf : 1 ≤ fuel2) :
    ∃ u, malloc fuel2 (free t p) S = some (p, u) ∧ u.brk = (free t p).brk := by
  obtain ⟨blocks, fl, hi⟩ := hw
  have hr := malloc_some s blocks fl live hi fuel S (by omega) _ hm
  rcases mallocResult_cases s blocks fl live hi S with ⟨b, hb, hsz, _, e⟩ | ⟨_, hmax, e⟩ |
    ⟨_, _, e⟩
  · rw [e] at hr
    have e1 : p = b + 32 := congrArg Prod.fst hr
    have e2 : t = hit s b := congrArg Prod.snd hr
    subst e1 e2
    have hi2 := hit_inv s blocks fl live hi b hb
    have hS2 := Layout.sep (hit s b) blocks hi2.layout
    have hpl : b + 32 ∈ (b + 32) :: live := by simp
    have hlv := hi2.live_blk _ hpl
    simp only [Nat.add_sub_cancel] at hlv
    have hbn : b ∈ (hit s b).lo :: blocks := List.mem_cons_of_mem _ hlv.2.1
    have hln : (hit s b).lo ∈ (hit s b).lo :: blocks := by simp
    have hfn := Inv.fl_node _ _ _ _ hi2 _ (Inv.first_mem _ _ _ _ hi2)
    have hbp := Inv.block_pos _ _ hi2.layout b hlv.2.1
    have hh : sub64 (b + 32) hdr_size = b := by
      rw [(Inv.live_lt _ _ _ _ hi2 _ hpl).2]; omega
    obtain ⟨g1, g2, g3, g4⟩ := free_head (hit s b) (b + 32) b hh (by omega) (hS2 _ hbn _ hln)
      hbp.2.1 (hS2 _ hfn _ hln) (hS2 _ hfn _ hbn)
    have hszt : size_of (hit s b) b = size_of s b + 1 := by
      have := ((hit_fields s blocks fl live hi b hb).2.2.2 b
        (List.mem_cons_of_mem _ (hi.fl_blk b hb).1)).1
      rw [this, if_pos rfl]
    have hev : size_of s b % 2 = 0 := by
      have := (hi.fl_blk b hb).2; omega
    have hm2 := malloc_first (free (hit s b) (b + 32)) S fuel2 (by omega) hf
      (by rw [g1, g2, hszt]; omega) (by rw [g1, g4]; exact hbp.2.1) (by rw [g1]; exact hbp.1)
    rw [g1, hbp.2.2.1] at hm2
    exact ⟨_, hm2, hit_brk _ _⟩
  · rw [e] at hr
    have e1 : p = add64 s.brk hdr_size := congrArg Prod.fst hr
    have e2 : t = miss s (align (add64 S hdr_size)) := congrArg Prod.snd hr
    subst e1 e2
    obtain ⟨m1, m2, m3, m4, mf⟩ := miss_fields s blocks hi.layout _ (align_mod _) hmax
    have hl := hi.layout
    have hbW : s.brk < W := by
      have := hl.brk_le; have := hl.max_lt; omega
    have hh : sub64 (add64 s.brk hdr_size) hdr_size = s.brk := by
      rw [hdr_size_eq]
      unfold sub64 add64
      unfold W at *
      omega
    have hfm := Inv.fl_node s blocks fl live hi _ (Inv.first_mem s blocks fl live hi)
    have hnx : next_of (miss s (align (add64 S hdr_size))) (miss s (align (add64 S hdr_size))).lo
        = next_of s s.lo := by rw [m1, (mf _ (by simp)).2.1]
    have hsent := hl.sent
    obtain ⟨g1, g2, g3, g4⟩ := free_head (miss s (align (add64 S hdr_size)))
      (add64 s.brk hdr_size) s.brk hh hbW (by rw [m1]; unfold Sep; omega) (by rw [m1]; omega)
      (by rw [hnx, m1]; exact Layout.sep s blocks hl _ hfm _ (by simp))
      (by rw [hnx]; have := Inv.node_lt s blocks hl _ hfm; unfold Sep; omega)
    have ham := align_mod (add64 S hdr_size)
    have hm2 := malloc_first (free (miss s (align (add64 S hdr_size))) (add64 s.brk hdr_size)) S
      fuel2 (by omega) hf (by rw [g1, g2, m4]; omega) (by rw [g1, g4, m1]; omega)
      (by rw [g1]; unfold NULL; omega)
    rw [g1] at hm2
    exact ⟨_, hm2, hit_brk _ _⟩
  · rw [e] at hr
    exact absurd (congrArg Prod.fst hr) hp

/-- An instance of C3: `malloc(100)`, `free`, `malloc(100)` on the heap just
after `mm_init`. -/
theorem C3_witness :
    WellFormed heap1 [] ∧ 1 ≤ 100 ∧
    malloc 1 heap1 100 = some (ret (malloc 1 heap1 100), after (malloc 1 heap1 100)) ∧
    ret (malloc 1 heap1 100) ≠ NULL ∧ 1 ≤ 1 ∧
    ∃ u, malloc 1 (free (after (malloc 1 heap1 100)) (ret (malloc 1 heap1 100))) 100
        = some (ret (malloc 1 heap1 100), u) ∧
      u.brk = (free (after (malloc 1 heap1 100)) (ret (malloc 1 heap1 100))).brk :=
  ⟨Reach_inv _ _ (Reach_heap1 fits), by decide, ret_after _ (by decide), by decide, by decide,
    C3_free_then_malloc_same heap1 [] (Reach_inv _ _ (Reach_heap1 fits)) 100 (by decide) 1 _ _
      (ret_after _ (by decide)) (by decide) 1 (by decide)⟩

/-! ## C4: `calloc` -/

/-- C4, as amended: on a well-formed heap, for a count `n` and an element size
`sz` whose product fits (`n·sz + hdr_size + 15 < 2^64`), `calloc(n, sz)`
returns for every large enough budget, and when it returns a non-null pointer
`p`, every byte of `[p, p + n·sz)` reads as zero after the call, and that
region is inside the payload of the block behind `p`, which is marked
allocated and lies inside the heap. -/
theorem C4_calloc_zeroed (s : Heap) (live : List Nat) (hw : WellFormed s live)
    (n sz : Nat) (hfit : fits (n * sz)) :
    (∃ k, ∀ fuel, k ≤ fuel → (calloc fuel s n sz).isSome = true) ∧
    ∀ fuel p t, calloc fuel s n sz = some (p, t) → p ≠ NULL →
      (∀ a, p ≤ a → a < p + n * sz → t.mem a = 0) ∧ allocated t (p - hdr_size) ∧
      p + n * sz ≤ (p - hdr_size) + rsize t (p - hdr_size) ∧
      (p - hdr_size) + rsize t (p - hdr_size) ≤ t.brk := by
  obtain ⟨blocks, fl, hi⟩ := hw
  refine ⟨⟨fl.length + 1, fun fuel hf => ?_⟩, ?_⟩
  · unfold calloc
    simp only [mul64_of_fits n sz hfit]
    by_cases z : n * sz = 0
    · rw [z, malloc_zero]; rfl
    · rw [malloc_returns s blocks fl live hi fuel _ z hf]
      simp only
      split <;> rfl
  · intro fuel p t hc hp
    obtain ⟨b2, f2, hi2, hpost⟩ := calloc_inv s blocks fl live hi fuel n sz p t hfit hc
    obtain ⟨_, h2, _, h4, h5⟩ := hpost hp
    have hlv := hi2.live_blk p h2
    have hb := hi2.layout.blk _ hlv.2.1
    unfold IsBlock at hb
    rw [hdr_size_eq]
    exact ⟨h5, hlv.2.2, by omega, hb.2.2.2.2⟩

/-- An instance of C4: `calloc(10, 10)` on the heap just after `mm_init`. -/
theorem C4_witness :
    WellFormed heap1 [] ∧ fits (10 * 10) ∧
    calloc 1 heap1 10 10 = some (ret (calloc 1 heap1 10 10), after (calloc 1 heap1 10 10)) ∧
    ret (calloc 1 heap1 10 10) ≠ NULL ∧
    ((∀ a, ret (calloc 1 heap1 10 10) ≤ a → a < ret (calloc 1 heap1 10 10) + 10 * 10 →
        (after (calloc 1 heap1 10 10)).mem a = 0) ∧
      allocated (after (calloc 1 heap1 10 10)) (ret (calloc 1 heap1 10 10) - hdr_size) ∧
      ret (calloc 1 heap1 10 10) + 10 * 10 ≤ (ret (calloc 1 heap1 10 10) - hdr_size) +
        rsize (after (calloc 1 heap1 10 10)) (ret (calloc 1 heap1 10 10) - hdr_size) ∧
      (ret (calloc 1 heap1 10 10) - hdr_size) +
        rsize (after (calloc 1 heap1 10 10)) (ret (calloc 1 heap1 10 10) - hdr_size)
        ≤ (after (calloc 1 heap1 10 10)).brk) :=
  ⟨Reach_inv _ _ (Reach_heap1 fits), by decide, ret_after _ (by decide), by decide,
    (C4_calloc_zeroed heap1 [] (Reach_inv _ _ (Reach_heap1 fits)) 10 10 (by decide)).2 1 _ _
      (ret_after _ (by decide)) (by decide)⟩

/-- C4 fails as stated, on the well-formed heap just after `mm_init`.
`calloc(2^63 + 1, 2)` returns the non-null pointer 4160, and the byte at
4160 + 2, which is one of the `n·s = 2^64 + 2` bytes from 4160 on, reads 170.
`calloc(1, 2^64 - 47)` returns the non-null pointer 4160 while the block behind
it has masked size 0 and the heap ends at 4127, so the region is not the
payload of that block. -/
theorem C4_counterexample :
    WellFormed heap1 [] ∧
    (calloc 1 heap1 (2 ^ 63 + 1) 2).map (fun r => (r.1, r.2.mem (r.1 + 2))) = some (4160, 170) ∧
    (calloc 1 heap1 1 (2 ^ 64 - 47)).map
      (fun r => (r.1, rsize r.2 (r.1 - hdr_size), mm_heap_hi r.2)) = some (4160, 0, 4127) :=
  ⟨Reach_inv _ _ (Reach_heap1 fits), by decide, by decide⟩

/-! ## C5, C6, C7: the special cases of `realloc` and `malloc` -/

/-- C5: `realloc(NULL, S)` is `malloc(S)`, with the same result and the same
heap after the call; and for a non-null pointer `p`, `realloc(p, 0)` returns
`NULL` and leaves the heap that `free(p)` leaves. -/
theorem C5_realloc_special_cases (fuel : Nat) (s : Heap) (S p : Nat) (hp : p ≠ NULL) :
    realloc fuel s NULL S = malloc fuel s S ∧ realloc fuel s p 0 = some (NULL, free s p) := by
  constructor
  · unfold realloc
    rw [if_pos rfl]
  · unfold realloc
    rw [if_neg hp, if_pos rfl]

/-- An instance of C5: `realloc(NULL, 100)` and `realloc(4160, 0)` on the heap
after `mm_init` and `malloc(100)`. -/
theorem C5_witness :
    4160 ≠ NULL ∧ realloc 1 heapM NULL 100 = malloc 1 heapM 100 ∧
    realloc 1 heapM 4160 0 = some (NULL, free heapM 4160) :=
  ⟨by decide, C5_realloc_special_cases 1 heapM 100 4160 (by decide)⟩

/-- C6: on every heap and for every budget, `malloc(0)` returns `NULL` and the
heap after the call is the heap before it. -/
theorem C6_malloc_zero (fuel : Nat) (s : Heap) : malloc fuel s 0 = some (NULL, s) := by
  unfold malloc
  rw [if_pos rfl]

/-- On a well-formed heap the nodes of the free list are reached from the
sentinel. -/
theorem Inv.on_free_list (s : Heap) (blocks fl live : List Nat) (hi : Inv s blocks fl live)
    (b : Nat) (hb : b ∈ fl) : OnFreeList s b :=
  NextChain_reach s s.lo fl s.lo (Linked_NextChain s s.lo fl s.lo hi.linked) b hb

/-- On a well-formed heap the nodes reached from the sentinel are the sentinel
and the nodes of the free list. -/
theorem Inv.of_on_free_list (s : Heap) (blocks fl live : List Nat) (hi : Inv s blocks fl live)
    (b : Nat) (hb : OnFreeList s b) : b ∈ s.lo :: fl := by
  obtain ⟨n, hn⟩ := hb
  rw [← hn]
  exact next_iter_mem s fl (Linked_NextChain s s.lo fl s.lo hi.linked) n s.lo (by simp)

/-- C7: on a well-formed heap, for `S ≥ 1`, when no block of the free list has
a size field of at least `align(S + hdr_size)` and `mm_sbrk` of that size
fails, `malloc(S)` returns `NULL` for every large enough budget, whenever it
returns it returns `NULL`, and the heap after the call is the heap before
it. -/
theorem C7_malloc_growth_failure (s : Heap) (live : List Nat) (hw : WellFormed s live)
    (S : Nat) (hS : 1 ≤ S)
    (hno : ∀ b, OnFreeList s b → b ≠ s.lo → size_of s b < align (add64 S hdr_size))
    (hfail : (mm_sbrk s (align (add64 S hdr_size))).1 = FAIL) :
    (∃ k, ∀ fuel, k ≤ fuel → malloc fuel s S = some (NULL, s)) ∧
    ∀ fuel r, malloc fuel s S = some r → r = (NULL, s) := by
  obtain ⟨blocks, fl, hi⟩ := hw
  have hres : mallocResult s fl S = (NULL, s) := by
    have hff := firstFit_none s (align (add64 S hdr_size)) fl (fun b hb =>
      hno b (Inv.on_free_list s blocks fl live hi b hb)
        (fun e => Inv.fl_lo s blocks fl live hi (e ▸ hb)))
    have hnm : ¬ s.brk + align (add64 S hdr_size) ≤ s.max := by
      intro c
      unfold mm_sbrk at hfail
      rw [if_pos c] at hfail
      have := hi.layout.brk_al
      unfold FAIL W at hfail
      simp only at hfail
      omega
    unfold mallocResult
    simp only [hff, ne_eq, not_true_eq_false, if_false, if_neg hnm]
  refine ⟨⟨fl.length + 1, fun fuel hf => ?_⟩, fun fuel r hm => ?_⟩
  · rw [malloc_returns s blocks fl live hi fuel S (by omega) hf, hres]
  · rw [malloc_some s blocks fl live hi fuel S (by omega) r hm, hres]

/-- An instance of C7: `malloc(100)` on a heap that has room for the sentinel
only. -/
theorem C7_witness :
    WellFormed heapF [] ∧ 1 ≤ 100 ∧
    (mm_sbrk heapF (align (add64 100 hdr_size))).1 = FAIL ∧
    malloc 1 heapF 100 = some (NULL, heapF) := by
  have hi : Inv heapF [] [] [] :=
    mm_init_inv heapF0 (by decide) (by decide) (by decide) (by decide)
  have hno : ∀ b, OnFreeList heapF b → b ≠ heapF.lo →
      size_of heapF b < align (add64 100 hdr_size) := by
    intro b hb hne
    have := Inv.of_on_free_list heapF [] [] [] hi b hb
    simp only [List.mem_singleton] at this
    exact absurd this hne
  refine ⟨⟨[], [], hi⟩, by decide, by decide, ?_⟩
  exact (C7_malloc_growth_failure heapF [] ⟨[], [], hi⟩ 100 (by decide) hno (by decide)).2 1 _
    (ret_after _ (by decide)) ▸ ret_after _ (by decide)

/-! ## C8: `mm_init` -/

/-- C8, the code at the failing input: on an empty heap with no room for the
sentinel `mm_sbrk(hdr_size)` fails, and `mm_init` returns `true`. -/
theorem C8_mm_init_ignores_failure :
    (mm_sbrk heapS0 hdr_size).1 = FAIL ∧ (mm_init heapS0).1 = true :=
  ⟨by decide, rfl⟩

/-- The part of C8 that holds: `mm_init` returns `true` on every heap, and when
`mm_sbrk` succeeds on an empty heap the sentinel at `mm_heap_lo()` has size
`hdr_size` with the flag clear and `next == prev ==` itself. -/
theorem mm_init_success (s0 : Heap) (hbrk : s0.brk = s0.lo) (hmax : s0.lo + hdr_size ≤ s0.max)
    (hW : s0.max < W) :
    (mm_init s0).1 = true ∧ size_of (mm_init s0).2 (mm_heap_lo (mm_init s0).2) = hdr_size ∧
    ¬ allocated (mm_init s0).2 (mm_heap_lo (mm_init s0).2) ∧
    next_of (mm_init s0).2 (mm_heap_lo (mm_init s0).2) = mm_heap_lo (mm_init s0).2 ∧
    prev_of (mm_init s0).2 (mm_heap_lo (mm_init s0).2) = mm_heap_lo (mm_init s0).2 := by
  obtain ⟨h0, h1, _, _, h4, h5, h6⟩ := mm_init_fields s0 hbrk hmax hW
  unfold mm_heap_lo allocated
  rw [h1, h4, h5, h6, hdr_size_eq]
  exact ⟨h0, rfl, by omega, rfl, rfl⟩

/-! ## C9 and C10: the free list in every reachable heap -/

/-- The heap `heapB3` is reached by calls of any size. -/
theorem Reach_heapB3 : Reach anySize heapB3 [4160] := by
  have r1 := Reach.malloc 1 (2 ^ 64 - 47) _ heap1 _ [] (Reach_heap1 anySize) trivial
    (ret_after (malloc 1 heap1 (2 ^ 64 - 47)) (by decide))
  have e1 : addLive (ret (malloc 1 heap1 (2 ^ 64 - 47))) [] = [4160] := by decide
  rw [e1] at r1
  have r2 := Reach.free 4160 _ _ r1 (by decide)
  have r3 := Reach.malloc 2 1 _ heapB2 _ _ r2 trivial (ret_after (malloc 2 heapB2 1) (by decide))
  have e3 : addLive (ret (malloc 2 heapB2 1)) ([4160].erase 4160) = [4160] := by decide
  rw [e3] at r3
  exact r3

theorem Inv.free_list_wf (s : Heap) (blocks fl live : List Nat) (hi : Inv s blocks fl live) :
    FreeListWF s := by
  refine ⟨fl, Inv.nodup_cycle s blocks fl live hi, Linked_NextChain s s.lo fl s.lo hi.linked, ?_⟩
  intro b hb
  refine ⟨Linked_prev_next s s.lo fl s.lo hi.linked b hb,
    Linked_next_prev s s.lo fl s.lo hi.linked b ?_⟩
  rcases List.mem_cons.1 hb with e | h
  · rw [e]; simp
  · exact List.mem_append_left _ h

/-- C9, as amended: in every heap reached from a successful `mm_init` by
`malloc`, `free`, `realloc` and `calloc` calls whose sizes fit
(`size + hdr_size + 15 < 2^64`), the free list is well formed: the nodes
reached from the sentinel by `next` form a cycle back to the sentinel without
repetition, and every node `b` of it has `b.next.prev == b` and
`b.prev.next == b`. -/
theorem C9_free_list_well_formed (s : Heap) (live : List Nat) (hr : Reach fits s live) :
    FreeListWF s := by
  obtain ⟨blocks, fl, hi⟩ := Reach_inv s live hr
  exact Inv.free_list_wf s blocks fl live hi

/-- An instance of C9: the heap after `mm_init` and `malloc(100)`. -/
theorem C9_witness : Reach fits heapM [4160] ∧ FreeListWF heapM :=
  ⟨Reach_heapM, C9_free_list_well_formed heapM [4160] Reach_heapM⟩

/-- C9 fails as stated: after `mm_init`, `malloc(2^64 - 47)`, `free` of the
pointer returned, `malloc(1)` and `free` of the pointer returned, the free list
is not well formed: the `prev` of the node after the sentinel is that node
itself. -/
theorem C9_counterexample :
    Reach anySize heapB4 [] ∧ ¬ FreeListWF heapB4 ∧
    prev_of heapB4 (next_of heapB4 heapB4.lo) = next_of heapB4 heapB4.lo ∧
    next_of heapB4 heapB4.lo ≠ heapB4.lo := by
  refine ⟨Reach.free 4160 _ _ Reach_heapB3 (by decide), ?_, by decide, by decide⟩
  rintro ⟨fl, _, _, h⟩
  have h1 := (h heapB4.lo (by simp)).1
  revert h1
  decide

theorem Inv.free_iff (s : Heap) (blocks fl live : List Nat) (hi : Inv s blocks fl live) :
    ∀ h ∈ s.lo :: blocks, (OnFreeList s h ↔ ¬ allocated s h) := by
  intro h hh
  constructor
  · intro ho
    rcases List.mem_cons.1 (Inv.of_on_free_list s blocks fl live hi h ho) with e | hf
    · rw [e]
      unfold allocated
      rw [hi.layout.sent_size]
      omega
    · exact (hi.fl_blk h hf).2
  · intro hna
    rcases List.mem_cons.1 hh with e | hb
    · exact ⟨0, by rw [e]; rfl⟩
    · rcases hi.cover h hb with c | c
      · exact Inv.on_free_list s blocks fl live hi h c
      · have := (hi.live_blk _ c).2.2
        simp only [Nat.add_sub_cancel] at this
        exact absurd this hna

theorem Inv.live_off_list (s : Heap) (blocks fl live : List Nat) (hi : Inv s blocks fl live)
    (p : Nat) (hp : p ∈ live) :
    allocated s (p - hdr_size) ∧ ¬ OnFreeList s (p - hdr_size) ∧ p - hdr_size ≠ mm_heap_lo s := by
  rw [hdr_size_eq]
  have hlv := hi.live_blk p hp
  have hb := (hi.layout.blk _ hlv.2.1).2.1
  have hne : p - 32 ≠ s.lo := by omega
  refine ⟨hlv.2.2, ?_, hne⟩
  intro ho
  rcases List.mem_cons.1 (Inv.of_on_free_list s blocks fl live hi _ ho) with e | hf
  · exact hne e
  · exact (hi.fl_blk _ hf).2 hlv.2.2

/-- C10, as amended: in every heap reached from a successful `mm_init` by
calls whose sizes fit (`size + hdr_size + 15 < 2^64`), the blocks found by
walking the heap from the sentinel are such that a block is reached from the
sentinel by `next` links if and only if its allocation flag is clear, and the
block behind every live pointer is one of them; and the block behind a
non-null pointer returned by a `malloc` whose size fits has its flag set, is
not reached from the sentinel by `next` links, and is not the sentinel. -/
theorem C10_free_iff_on_list (s : Heap) (live : List Nat) (hr : Reach fits s live) :
    (∃ blocks, Tiles s s.lo (s.lo :: blocks) ∧ (∀ p ∈ live, p - hdr_size ∈ blocks) ∧
      ∀ h ∈ s.lo :: blocks, (OnFreeList s h ↔ ¬ allocated s h)) ∧
    ∀ fuel S p t, fits S → malloc fuel s S = some (p, t) → p ≠ NULL →
      allocated t (p - hdr_size) ∧ ¬ OnFreeList t (p - hdr_size) ∧
      p - hdr_size ≠ mm_heap_lo t := by
  obtain ⟨blocks, fl, hi⟩ := Reach_inv s live hr
  refine ⟨⟨blocks, ?_, ?_, Inv.free_iff s blocks fl live hi⟩, ?_⟩
  · simp only [Tiles, true_and]
    have : rsize s s.lo = 32 := by rw [rsize_eq, hi.layout.sent_size]
    rw [this]
    exact hi.layout.tiles
  · intro p hp
    rw [hdr_size_eq]
    exact (hi.live_blk p hp).2.1
  · intro fuel S p t hfit hm hp
    obtain ⟨b2, f2, hi2, hpost⟩ := malloc_inv s blocks fl live hi fuel S p t hfit hm
    exact Inv.live_off_list t b2 f2 _ hi2 p (hpost hp).2.1

/-- An instance of C10: `malloc(100)` on the heap just after `mm_init`. -/
theorem C10_witness :
    Reach fits heap1 [] ∧ fits 100 ∧
    (allocated (after (malloc 1 heap1 100)) (ret (malloc 1 heap1 100) - hdr_size) ∧
      ¬ OnFreeList (after (malloc 1 heap1 100)) (ret (malloc 1 heap1 100) - hdr_size) ∧
      ret (malloc 1 heap1 100) - hdr_size ≠ mm_heap_lo (after (malloc 1 heap1 100))) :=
  ⟨Reach_heap1 fits, by decide,
    (C10_free_iff_on_list heap1 [] (Reach_heap1 fits)).2 1 100 _ _ (by decide)
      (ret_after _ (by decide)) (by decide)⟩

/-- C10 fails as stated: after `mm_init`, `malloc(2^64 - 47)` and `free` of the
pointer returned, `malloc(1)` returns 4160, and the block behind it, at 4128,
has its flag set and is the node after the sentinel on the free list. -/
theorem C10_counterexample :
    Reach anySize heapB3 [4160] ∧ ret (malloc 2 heapB2 1) = 4160 ∧
    allocated heapB3 (4160 - hdr_size) ∧ next_iter heapB3 1 heapB3.lo = 4160 - hdr_size ∧
    OnFreeList heapB3 (4160 - hdr_size) :=
  ⟨Reach_heapB3, by decide, by decide, by decide, ⟨1, by decide⟩⟩

/-! ## C14: `align` -/

/-- C14, as amended: for every `x` with `x + 15 < 2^64`, `align(x)` is the
least multiple of 16 that is at least `x`: it is a multiple of 16, it is at
least `x` and less than `x + 16`, it is `x` when `x` is a multiple of 16, and no
multiple of 16 from `x` on is smaller. -/
theorem C14_align_rounds_up (x : Nat) (h : x + 15 < W) :
    align x % 16 = 0 ∧ x ≤ align x ∧ align x - x < 16 ∧ (x % 16 = 0 → align x = x) ∧
    ∀ m, m % 16 = 0 → x ≤ m → align x ≤ m := by
  rw [align_of_lt x h]
  refine ⟨by omega, by omega, by omega, by omega, ?_⟩
  intro m h1 h2
  omega

/-- An instance of C14: `align(100) = 112`. -/
theorem C14_witness :
    100 + 15 < W ∧ (align 100 % 16 = 0 ∧ 100 ≤ align 100 ∧ align 100 - 100 < 16 ∧
      (100 % 16 = 0 → align 100 = 100) ∧ ∀ m, m % 16 = 0 → 100 ≤ m → align 100 ≤ m) :=
  ⟨by decide, C14_align_rounds_up 100 (by decide)⟩

/-- C14 fails as stated: `2^64 - 15` is a `size_t` value, and `align` of it is
0, which is less than it. -/
theorem C14_counterexample :
    2 ^ 64 - 15 < W ∧ align (2 ^ 64 - 15) = 0 ∧ ¬ (2 ^ 64 - 15 ≤ align (2 ^ 64 - 15)) :=
  ⟨by decide, by decide, by decide⟩

/-! ## C11: the sizes of the blocks -/

/-- The heap `heapA1` is reached by calls of any size. -/
theorem Reach_heapA1 : Reach anySize heapA1 [4160] := by
  have r1 := Reach.malloc 1 (2 ^ 64 - 31) _ heap1 _ [] (Reach_heap1 anySize) trivial
    (ret_after (malloc 1 heap1 (2 ^ 64 - 31)) (by decide))
  have e1 : addLive (ret (malloc 1 heap1 (2 ^ 64 - 31))) [] = [4160] := by decide
  rw [e1] at r1
  exact r1

/-- In a well-formed heap the sentinel and every block have a masked size of at
least a header that is a multiple of 16. -/
theorem Layout.sizes (s : Heap) (blocks : List Nat) (hl : Layout s blocks) :
    ∀ h ∈ s.lo :: blocks, hdr_size ≤ rsize s h ∧ rsize s h % 16 = 0 := by
  intro h hh
  rw [hdr_size_eq]
  rcases List.mem_cons.1 hh with e | hb
  · rw [e, rsize_eq, hl.sent_size]
    omega
  · have := hl.blk h hb
    unfold IsBlock at this
    omega

/-- The walk of the heap from the sentinel finds the sentinel and the
blocks. -/
theorem Layout.walk (s : Heap) (blocks : List Nat) (hl : Layout s blocks) :
    Tiles s s.lo (s.lo :: blocks) := by
  simp only [Tiles, true_and]
  have : rsize s s.lo = 32 := by rw [rsize_eq, hl.sent_size]
  rw [this]
  exact hl.tiles

/-- C11, as amended: in every heap reached from a successful `mm_init` by
calls whose sizes fit (`size + hdr_size + 15 < 2^64`), every block found by
walking the heap from the sentinel, the sentinel included, has a masked size
that is at least `hdr_size` and a multiple of 16; and when a `malloc(S)` with
`S ≥ 1` that fits extends the heap, the header of the block it returns has the
masked size `align(S + hdr_size)`, which is at least `S + hdr_size`. -/
theorem C11_block_sizes (s : Heap) (live : List Nat) (hr : Reach fits s live) :
    (∃ blocks, Tiles s s.lo (s.lo :: blocks) ∧
      ∀ h ∈ s.lo :: blocks, hdr_size ≤ rsize s h ∧ rsize s h % 16 = 0) ∧
    ∀ fuel S p t, 1 ≤ S → fits S → malloc fuel s S = some (p, t) → p ≠ NULL →
      s.brk < t.brk →
      rsize t (p - hdr_size) = align (add64 S hdr_size) ∧
      S + hdr_size ≤ align (add64 S hdr_size) := by
  obtain ⟨blocks, fl, hi⟩ := Reach_inv s live hr
  refine ⟨⟨blocks, Layout.walk s blocks hi.layout, Layout.sizes s blocks hi.layout⟩, ?_⟩
  intro fuel S p t hS hfit hm hp hbrk
  have hr2 := malloc_some s blocks fl live hi fuel S (by omega) _ hm
  have hq := req_bounds S hfit (by omega)
  rcases mallocResult_cases s blocks fl live hi S with ⟨b, hb, _, _, e⟩ | ⟨_, hmax, e⟩ |
    ⟨_, _, e⟩
  · rw [e] at hr2
    have e2 : t = hit s b := congrArg Prod.snd hr2
    rw [e2, hit_brk] at hbrk
    omega
  · rw [e] at hr2
    have hbW : s.brk + 32 < W := by
      have := hi.layout.max_lt; omega
    have ea : add64 s.brk hdr_size = s.brk + 32 := by
      rw [hdr_size_eq]; unfold add64; exact Nat.mod_eq_of_lt hbW
    rw [ea] at hr2
    have e1 : p = s.brk + 32 := congrArg Prod.fst hr2
    have e2 : t = miss s (align (add64 S hdr_size)) := congrArg Prod.snd hr2
    subst e1 e2
    have := (miss_fields s blocks hi.layout _ hq.1 hmax).2.2.2.1
    rw [hdr_size_eq] at hq this ⊢
    simp only [Nat.add_sub_cancel]
    rw [rsize_eq, this]
    omega
  · rw [e] at hr2
    exact absurd (congrArg Prod.fst hr2) hp

/-- An instance of C11: `malloc(100)` on the heap just after `mm_init` extends
the heap and writes a header of masked size 144. -/
theorem C11_witness :
    Reach fits heap1 [] ∧ 1 ≤ 100 ∧ fits 100 ∧
    heap1.brk < (after (malloc 1 heap1 100)).brk ∧
    (rsize (after (malloc 1 heap1 100)) (ret (malloc 1 heap1 100) - hdr_size)
        = align (add64 100 hdr_size) ∧
      100 + hdr_size ≤ align (add64 100 hdr_size)) :=
  ⟨Reach_heap1 fits, by decide, by decide, by decide,
    (C11_block_sizes heap1 [] (Reach_heap1 fits)).2 1 100 _ _ (by decide) (by decide)
      (ret_after _ (by decide)) (by decide) (by decide)⟩

/-- C11 fails as stated: on the heap just after `mm_init`, `malloc(2^64 - 31)`
extends the heap by `align(S + hdr_size) = 16` bytes and returns 4160; the walk
of the heap then finds the sentinel and the block at 4128, whose masked size is
16, less than `hdr_size`. -/
theorem C11_counterexample :
    Reach anySize heapA1 [4160] ∧ ret (malloc 1 heap1 (2 ^ 64 - 31)) = 4160 ∧
    heap1.brk < heapA1.brk ∧ align (add64 (2 ^ 64 - 31) hdr_size) = 16 ∧
    Tiles heapA1 heapA1.lo [4096, 4128] ∧ rsize heapA1 4128 = 16 ∧
    ¬ (hdr_size ≤ rsize heapA1 4128) :=
  ⟨Reach_heapA1, by decide, by decide, by decide, by simp only [Tiles]; decide,
    by decide, by decide⟩

/-! ## C13: `mm_checkheap` -/

/-- C13, as amended: `mm_checkheap` returns `true` on every heap and for every
line number; `DEBUG` is not defined and the function checks nothing. In
particular it returns `true` on every heap reached from `mm_init` by `malloc`
and `free` calls. -/
theorem C13_checkheap_true (s : Heap) (line_number : Nat) :
    mm_checkheap s line_number = true := rfl

/-- C13 fails as stated. In `heapC` the node after the sentinel is 5001, which
is outside the heap and not 16-byte aligned, and `mm_checkheap` returns `true`.
In `heapB4`, reached by calls of any size, the `prev` of the `next` of the
sentinel is not the sentinel, and `mm_checkheap` returns `true`. -/
theorem C13_counterexample :
    (next_iter heapC 1 heapC.lo = 5001 ∧ OnFreeList heapC 5001 ∧
      in_heap heapC 5001 = false ∧ aligned 5001 = false ∧ mm_checkheap heapC 0 = true) ∧
    (Reach anySize heapB4 [] ∧ OnFreeList heapB4 heapB4.lo ∧
      prev_of heapB4 (next_of heapB4 heapB4.lo) ≠ heapB4.lo ∧
      mm_checkheap heapB4 0 = true) :=
  ⟨⟨by decide, ⟨1, by decide⟩, by decide, by decide, rfl⟩,
    ⟨Reach.free 4160 _ _ Reach_heapB3 (by decide), ⟨0, rfl⟩, by decide, rfl⟩⟩

/-! ## C15: the first-fit search -/

/-- The heap after `mm_init` and `malloc(100)` is well formed, with one block
that is allocated. -/
theorem Inv_heapM : Inv heapM [4128] [] [4160] :=
  miss_inv heap1 [] [] [] (mm_init_inv heap0 (by decide) (by decide) (by decide) (by decide)) 144
    (by decide) (by decide) (by decide)

/-- The heap after `mm_init`, `malloc(100)` and `free` is well formed, with one
block that is free. -/
theorem Inv_heapN : Inv heapN [4128] [4128] [] :=
  free_inv heapM [4128] [] [4160] Inv_heapM 4160 (by decide)

/-- With a budget of one more step than the length of the chain, the loop
follows at most as many links as the chain has nodes. -/
theorem find_loop_links_spec (s : Heap) (req : Nat) : ∀ (l : List Nat) (a fuel : Nat),
    NextChain s a l s.lo → s.lo ∉ l → l.length + 1 ≤ fuel →
    ∃ k, find_loop_links s req fuel (next_of s a) = some k ∧ k ≤ l.length := by
  intro l
  induction l with
  | nil =>
    intro a fuel h _ hf
    simp only [NextChain] at h
    obtain ⟨f, rfl⟩ : ∃ f, fuel = f + 1 := ⟨fuel - 1, by omega⟩
    exact ⟨0, by simp [find_loop_links, h, mm_heap_lo], by omega⟩
  | cons b l ih =>
    intro a fuel h hlo hf
    simp only [NextChain] at h
    simp only [List.length_cons] at hf
    obtain ⟨f, rfl⟩ : ∃ f, fuel = f + 1 := ⟨fuel - 1, by omega⟩
    have hb : b ≠ s.lo := fun e => hlo (by simp [e])
    rw [h.1]
    simp only [find_loop_links, mm_heap_lo]
    by_cases c : req ≤ size_of s b
    · rw [if_neg (by omega)]
      exact ⟨0, rfl, by omega⟩
    · rw [if_pos ⟨hb, by omega⟩]
      obtain ⟨k, hk, hle⟩ := ih b f h.2 (fun h2 => hlo (List.mem_cons_of_mem _ h2)) (by omega)
      rw [hk]
      exact ⟨k + 1, rfl, by simp only [List.length_cons]; omega⟩

/-- The first fit splits the list: the nodes before it are too small. -/
theorem firstFit_split (s : Heap) (req : Nat) : ∀ l : List Nat, firstFit s req l ≠ s.lo →
    ∃ l1 l2, l = l1 ++ firstFit s req l :: l2 ∧ (∀ b ∈ l1, size_of s b < req) ∧
      req ≤ size_of s (firstFit s req l) := by
  intro l
  induction l with
  | nil => intro h; exact absurd rfl h
  | cons b l ih =>
    intro h
    simp only [firstFit] at h ⊢
    by_cases c : req ≤ size_of s b
    · rw [if_pos c]
      exact ⟨[], l, rfl, by simp, c⟩
    · rw [if_neg c] at h ⊢
      obtain ⟨l1, l2, e, h1, h2⟩ := ih h
      refine ⟨b :: l1, l2, by rw [List.cons_append, ← e], ?_, h2⟩
      intro x hx
      rcases List.mem_cons.1 hx with e2 | hx2
      · rw [e2]; omega
      · exact h1 x hx2

/-- C15: on a well-formed heap whose free list after the sentinel is `fl`, of
`n` nodes, and for every required size `r`: with a budget of `n + 1` steps
`find_free_mem(r)` returns, after following at most `n + 1` links; whenever it
returns, it returns `NULL` if and only if no node of `fl` has a size field of
at least `r`, and otherwise the first node of `fl` with a size field of at
least `r` (every node before it is smaller); and, the heap base not being the
null address, it does not return the sentinel. -/
theorem C15_first_fit (s : Heap) (blocks fl live : List Nat) (hi : Inv s blocks fl live)
    (r : Nat) :
    (∀ fuel, fl.length + 1 ≤ fuel → (find_free_mem fuel s r).isSome = true ∧
      ∃ k, find_links fuel s r = some k ∧ k ≤ fl.length + 1) ∧
    ∀ fuel x, find_free_mem fuel s r = some x →
      (x = NULL ↔ ∀ b ∈ fl, size_of s b < r) ∧
      (x ≠ NULL → ∃ l1 l2, fl = l1 ++ x :: l2 ∧ (∀ b ∈ l1, size_of s b < r) ∧
        r ≤ size_of s x) ∧
      (s.lo ≠ NULL → x ≠ s.lo) := by
  have hch := Linked_NextChain s s.lo fl s.lo hi.linked
  have hlo := Inv.fl_lo s blocks fl live hi
  refine ⟨fun fuel hf => ⟨?_, ?_⟩, fun fuel x hx => ?_⟩
  · rw [find_free_mem_spec s blocks fl live hi r fuel hf]; rfl
  · obtain ⟨k, hk, hle⟩ := find_loop_links_spec s r fl s.lo fuel hch hlo hf
    unfold find_links
    simp only [mm_heap_lo]
    rw [hk]
    exact ⟨k + 1, rfl, by omega⟩
  · have hx2 := find_free_mem_some s blocks fl live hi r fuel x hx
    by_cases c : firstFit s r fl ≠ s.lo
    · rw [if_pos c] at hx2
      obtain ⟨l1, l2, e, h1, h2⟩ := firstFit_split s r fl c
      rw [← hx2] at e h2
      have hxm : x ∈ fl := by rw [e]; simp
      have hbp := Inv.block_pos s blocks hi.layout x (hi.fl_blk x hxm).1
      refine ⟨⟨fun e0 => absurd e0 hbp.1, fun hall => ?_⟩, fun _ => ⟨l1, l2, e, h1, h2⟩,
        fun _ => hbp.2.1⟩
      have := hall x hxm
      omega
    · rw [if_neg c] at hx2
      have hno := firstFit_lo s r fl hlo (not_not.1 c)
      exact ⟨⟨fun _ => hno, fun _ => hx2⟩, fun h => absurd hx2 h,
        fun h => by rw [hx2]; exact Ne.symm h⟩

/-- An instance of C15: the search for 96 bytes on `heapN`, whose free list is
the block at 4128, follows one link and returns that block. -/
theorem C15_witness :
    Inv heapN [4128] [4128] [] ∧
    ((find_free_mem 2 heapN 96).isSome = true ∧
      ∃ k, find_links 2 heapN 96 = some k ∧ k ≤ [4128].length + 1) ∧
    find_free_mem 2 heapN 96 = some 4128 ∧ find_links 2 heapN 96 = some 1 :=
  ⟨Inv_heapN, (C15_first_fit heapN [4128] [4128] [] Inv_heapN 96).1 2 (by decide), by decide,
    by decide⟩

/-! ## C16: `free` pushes at the head of the free list -/

/-- C16: on a well-formed heap whose free list after the sentinel is `fl`, and
for a live pointer `p` with block `h = p - hdr_size`, the heap after `free(p)`
is well formed with the free list `h :: fl`, in `next` order from the
sentinel; the flag of `h` is clear, the masked size of `h` is what it was, the
break is where it was, and every payload byte of every block is unchanged.
Consequently, for two distinct live pointers `q` and `p`, after `free(q)` then
`free(p)` a `malloc(S)` with `S ≥ 1` whose request size both blocks can hold
returns `p`, for every budget of at least one step. -/
theorem C16_free_pushes_front (s : Heap) (blocks fl live : List Nat)
    (hi : Inv s blocks fl live) (p : Nat) (hp : p ∈ live) :
    Inv (free s p) blocks ((p - hdr_size) :: fl) (live.erase p) ∧
    NextChain (free s p) (mm_heap_lo (free s p)) ((p - hdr_size) :: fl)
      (mm_heap_lo (free s p)) ∧
    ¬ allocated (free s p) (p - hdr_size) ∧
    rsize (free s p) (p - hdr_size) = rsize s (p - hdr_size) ∧
    (free s p).brk = s.brk ∧
    (∀ x ∈ blocks, ∀ a, x + hdr_size ≤ a → a < x + rsize s x →
      (free s p).mem a = s.mem a) ∧
    ∀ q S fuel, q ∈ live → q ≠ p → 1 ≤ S → 1 ≤ fuel →
      align (add64 S hdr_size) ≤ rsize s (q - hdr_size) →
      align (add64 S hdr_size) ≤ rsize s (p - hdr_size) →
      ∃ t, malloc fuel (free (free s q) p) S = some (p, t) := by
  rw [hdr_size_eq]
  have hfr := free_inv s blocks fl live hi p hp
  obtain ⟨f1, f2, _, ff⟩ := free_fields s blocks fl live hi p hp
  have hlv := hi.live_blk p hp
  have hhn : p - 32 ∈ s.lo :: blocks := List.mem_cons_of_mem _ hlv.2.1
  have hodd : size_of s (p - 32) % 2 = 1 := hlv.2.2
  refine ⟨hfr, Linked_NextChain _ _ _ _ hfr.linked, (hfr.fl_blk _ (by simp)).2, ?_, f2, ?_, ?_⟩
  · rw [rsize_eq, rsize_eq, (ff _ hhn).1, if_pos rfl]
    omega
  · intro x hx a h1 h2
    exact free_mem_out s blocks fl live hi p hp a
      (payload_out s blocks hi.layout x hx a h1 h2)
  · intro q S fuel hq hne hS hf _ hreq
    have hi1 := free_inv s blocks fl live hi q hq
    have hp1 : p ∈ live.erase q := (hi.live_nodup.mem_erase_iff).2 ⟨Ne.symm hne, hp⟩
    obtain ⟨g1, _, _, gf⟩ := free_fields (free s q) blocks _ _ hi1 p hp1
    obtain ⟨k1, _, _, kf⟩ := free_fields s blocks fl live hi q hq
    have hqv := hi.live_blk q hq
    have hne2 : p - 32 ≠ q - 32 := by omega
    have hhn1 : p - 32 ∈ (free s q).lo :: blocks := List.mem_cons_of_mem _ hlv.2.1
    have hnx : next_of (free (free s q) p) (free (free s q) p).lo = p - 32 := by
      rw [g1, (gf _ (by simp)).2.1, if_pos rfl]
    have hsz : size_of (free (free s q) p) (p - 32) = rsize s (p - 32) := by
      rw [(gf _ hhn1).1, if_pos rfl, (kf _ hhn).1, if_neg hne2, rsize_eq]
      omega
    have hbp := Inv.block_pos s blocks hi.layout _ hlv.2.1
    have hm := malloc_first (free (free s q) p) S fuel (by omega) hf
      (by rw [hnx, hsz]; exact hreq) (by rw [hnx, g1, k1]; exact hbp.2.1)
      (by rw [hnx]; exact hbp.1)
    rw [hnx, hbp.2.2.1] at hm
    have e : p - 32 + 32 = p := by omega
    rw [e] at hm
    exact ⟨_, hm⟩

/-- An instance of C16: `free(4160)` on the heap after `mm_init` and
`malloc(100)`. -/
theorem C16_witness :
    Inv heapM [4128] [] [4160] ∧ 4160 ∈ [4160] ∧
    NextChain (free heapM 4160) (mm_heap_lo (free heapM 4160)) ((4160 - hdr_size) :: [])
      (mm_heap_lo (free heapM 4160)) ∧
    ¬ allocated (free heapM 4160) (4160 - hdr_size) ∧
    rsize (free heapM 4160) (4160 - hdr_size) = rsize heapM (4160 - hdr_size) ∧
    (free heapM 4160).brk = heapM.brk :=
  ⟨Inv_heapM, by decide,
    (C16_free_pushes_front heapM [4128] [] [4160] Inv_heapM 4160 (by decide)).2.1,
    by decide, by decide, by decide⟩

/-! ## C17: no splitting on a hit -/

/-- C17: on a well-formed heap with blocks `blocks` and free list `fl`, and
for `S ≥ 1`, when the search finds the block `h`, `malloc(S)` returns
`h + hdr_size`; `h` was on the free list with a size field of at least the
request size; after the call the masked size of `h` is what it was, its size
field is the old one with bit 0 set, the heap is well formed with the free list
`fl` without `h` (the other nodes in their order), the size field of every
other block and of the sentinel is unchanged, and the break is where it
was. -/
theorem C17_hit_no_split (s : Heap) (blocks fl live : List Nat) (hi : Inv s blocks fl live)
    (S : Nat) (hS : 1 ≤ S) (fuel h : Nat)
    (hfind : find_free_mem fuel s (align (add64 S hdr_size)) = some h) (hh : h ≠ NULL) :
    ∃ t, malloc fuel s S = some (h + hdr_size, t) ∧ h ∈ fl ∧
      align (add64 S hdr_size) ≤ rsize s h ∧ rsize t h = rsize s h ∧
      size_of t h = size_of s h ||| 1 ∧ allocated t h ∧
      Inv t blocks (fl.erase h) ((h + hdr_size) :: live) ∧
      fl.erase h = fl.filter (fun x => x != h) ∧
      (∀ x ∈ s.lo :: blocks, x ≠ h → size_of t x = size_of s x) ∧ t.brk = s.brk := by
  have hx := find_free_mem_some s blocks fl live hi _ fuel h hfind
  have hm := malloc_of_found s blocks fl live hi fuel S h (by omega) hfind
  by_cases c : firstFit s (align (add64 S hdr_size)) fl ≠ s.lo
  · rw [if_pos c] at hx
    rcases firstFit_mem s (align (add64 S hdr_size)) fl with e | e
    · exact absurd e c
    · rw [← hx] at e
      have hres : mallocResult s fl S = (h + hdr_size, hit s h) := by
        unfold mallocResult
        simp only [if_pos c, ← hx]
        rw [(Inv.block_pos s blocks hi.layout h (hi.fl_blk h e.1).1).2.2.1, hdr_size_eq,
          if_pos (Inv.block_pos s blocks hi.layout h (hi.fl_blk h e.1).1).2.1]
      rw [hres] at hm
      obtain ⟨_, _, _, _, hv, _⟩ := hit_nodes s blocks fl live hi h e.1
      obtain ⟨_, h2, _, hf⟩ := hit_fields s blocks fl live hi h e.1
      have hszh := (hf h (List.mem_cons_of_mem _ (hi.fl_blk h e.1).1)).1
      rw [if_pos rfl] at hszh
      have hev : size_of s h % 2 = 0 := by
        have := (hi.fl_blk h e.1).2; omega
      refine ⟨hit s h, hm, e.1, ?_, ?_, ?_, ?_, ?_, hi.fl_nodup.erase_eq_filter h, ?_, h2⟩
      · rw [rsize_eq]; omega
      · rw [rsize_eq, rsize_eq, hszh]; omega
      · rw [hszh, hv]
      · unfold allocated; rw [hszh]; omega
      · rw [hdr_size_eq]; exact hit_inv s blocks fl live hi h e.1
      · intro x hx2 hne
        rw [(hf x hx2).1, if_neg hne]
  · rw [if_neg c] at hx
    exact absurd hx hh

/-- An instance of C17: `malloc(50)` on `heapN`, whose free list is the block
at 4128, of size 144. -/
theorem C17_witness :
    Inv heapN [4128] [4128] [] ∧ 1 ≤ 50 ∧
    find_free_mem 1 heapN (align (add64 50 hdr_size)) = some 4128 ∧ 4128 ≠ NULL ∧
    ∃ t, malloc 1 heapN 50 = some (4128 + hdr_size, t) ∧ 4128 ∈ [4128] ∧
      align (add64 50 hdr_size) ≤ rsize heapN 4128 ∧ rsize t 4128 = rsize heapN 4128 ∧
      size_of t 4128 = size_of heapN 4128 ||| 1 ∧ allocated t 4128 ∧
      Inv t [4128] ([4128].erase 4128) ((4128 + hdr_size) :: []) ∧
      [4128].erase 4128 = [4128].filter (fun x => x != 4128) ∧
      (∀ x ∈ heapN.lo :: [4128], x ≠ 4128 → size_of t x = size_of heapN x) ∧
      t.brk = heapN.brk :=
  ⟨Inv_heapN, by decide, by decide, by decide,
    C17_hit_no_split heapN [4128] [4128] [] Inv_heapN 50 (by decide) 1 4128 (by decide)
      (by decide)⟩

/-! ## C12: a scenario on a fresh heap -/

theorem miss_bounds (s : Heap) (req : Nat) :
    (miss s req).lo = s.lo ∧ (miss s req).brk = s.brk + req ∧ (miss s req).max = s.max :=
  ⟨rfl, rfl, rfl⟩

theorem hit_bounds (s : Heap) (h : Nat) :
    (hit s h).lo = s.lo ∧ (hit s h).brk = s.brk ∧ (hit s h).max = s.max :=
  ⟨rfl, rfl, rfl⟩

/-- On a well-formed heap with an empty free list, a `malloc` of a size
`S ≥ 1` that fits, with room to grow, extends the heap and returns the payload
of the new block at the old break. -/
theorem malloc_extend (s : Heap) (blocks live : List Nat) (hi : Inv s blocks [] live)
    (S fuel : Nat) (hS : 1 ≤ S) (hfit : fits S)
    (hmax : s.brk + align (add64 S hdr_size) ≤ s.max) (hf : 1 ≤ fuel) :
    malloc fuel s S = some (s.brk + 32, miss s (align (add64 S hdr_size))) ∧
    Inv (miss s (align (add64 S hdr_size))) (blocks ++ [s.brk]) [] ((s.brk + 32) :: live) := by
  have hq := req_bounds S hfit (by omega)
  have hbW : s.brk + 32 < W := by
    have := hi.layout.max_lt; omega
  have ea : add64 s.brk hdr_size = s.brk + 32 := by
    rw [hdr_size_eq]; unfold add64; exact Nat.mod_eq_of_lt hbW
  refine ⟨?_, miss_inv s blocks [] live hi _ hq.1 (by omega) hmax⟩
  rw [malloc_returns s blocks [] live hi fuel S (by omega) (by simpa using hf)]
  unfold mallocResult
  simp only [firstFit, ne_eq, not_true_eq_false, if_false, if_pos hmax, ea]

/-- C12: on an empty heap with a 16-byte aligned base `L` and room for 10448
bytes, after `mm_init`, `malloc(100)` returns `A` and `malloc(200)` returns `B`
with `A < B` and `A + 100 ≤ B`; then after `free(A)`, `malloc(50)` returns `A`
and leaves the break where it was; then `malloc(9999)` moves the break up and
returns an address greater than `B + 200`. Every call returns for every budget
of at least one step. -/
theorem C12_scenario (s0 : Heap) (hlo : s0.lo % 16 = 0) (hbrk : s0.brk = s0.lo)
    (hmax : s0.lo + 10448 ≤ s0.max) (hW : s0.max < W) (f1 f2 f3 f4 : Nat)
    (h1 : 1 ≤ f1) (h2 : 1 ≤ f2) (h3 : 1 ≤ f3) (h4 : 1 ≤ f4) :
    ∃ A B C s2 s3 s5 s6, (mm_init s0).1 = true ∧
      malloc f1 (mm_init s0).2 100 = some (A, s2) ∧ malloc f2 s2 200 = some (B, s3) ∧
      A = s0.lo + 64 ∧ B = s0.lo + 208 ∧ A < B ∧ A + 100 ≤ B ∧
      malloc f3 (free s3 A) 50 = some (A, s5) ∧ s5.brk = (free s3 A).brk ∧
      malloc f4 s5 9999 = some (C, s6) ∧ s5.brk < s6.brk ∧ B + 200 < C := by
  have hmax0 : s0.lo + hdr_size ≤ s0.max := by rw [hdr_size_eq]; omega
  obtain ⟨i0, i1, i2, i3, _, _, _⟩ := mm_init_fields s0 hbrk hmax0 hW
  have hi1 := mm_init_inv s0 hlo hbrk hmax0 hW
  have e1 : align (add64 100 hdr_size) = 144 := by decide
  have e2 : align (add64 200 hdr_size) = 240 := by decide
  have e3 : align (add64 50 hdr_size) = 96 := by decide
  have e4 : align (add64 9999 hdr_size) = 10032 := by decide
  -- malloc(100)
  obtain ⟨m1, hi2⟩ := malloc_extend (mm_init s0).2 [] [] hi1 100 f1 (by decide) (by decide)
    (by rw [e1, i2, i3]; omega) h1
  rw [e1] at m1 hi2
  obtain ⟨a1, a2, a3⟩ := miss_bounds (mm_init s0).2 144
  have sz1 := (miss_fields (mm_init s0).2 [] hi1.layout 144 (by decide)
    (by rw [i2, i3]; omega)).2.2.2.1
  -- malloc(200)
  obtain ⟨m2, hi3⟩ := malloc_extend _ _ _ hi2 200 f2 (by decide) (by decide)
    (by rw [e2, a2, a3, i2, i3]; omega) h2
  rw [e2] at m2 hi3
  obtain ⟨b1, b2, b3⟩ := miss_bounds (miss (mm_init s0).2 144) 240
  have mf2 := (miss_fields _ _ hi2.layout 240 (by decide)
    (by rw [a2, a3, i2, i3]; omega)).2.2.2.2
  have sz2 := (mf2 (mm_init s0).2.brk (by simp)).1
  rw [sz1] at sz2
  rw [a2] at m2 hi3
  -- free(A)
  have hA : (mm_init s0).2.brk + 32 ∈
      [(mm_init s0).2.brk + 144 + 32, (mm_init s0).2.brk + 32] := by simp
  have hi4 := free_inv _ _ _ _ hi3 _ hA
  obtain ⟨c1, c2, c3, ff⟩ := free_fields _ _ _ _ hi3 _ hA
  simp only [Nat.add_sub_cancel] at hi4 ff
  have hnx := (ff (miss (miss (mm_init s0).2 144) 240).lo (by simp)).2.1
  rw [if_pos rfl] at hnx
  have hsz := (ff (mm_init s0).2.brk (by simp)).1
  rw [if_pos rfl, sz2] at hsz
  have hbp := Inv.block_pos _ _ hi3.layout (mm_init s0).2.brk (by simp)
  -- malloc(50)
  have m3 := malloc_first (free (miss (miss (mm_init s0).2 144) 240) ((mm_init s0).2.brk + 32))
    50 f3 (by decide) h3 (by rw [c1, hnx, hsz, e3]; omega)
    (by rw [c1, hnx]; exact hbp.2.1) (by rw [c1, hnx]; exact hbp.1)
  rw [c1, hnx, hbp.2.2.1] at m3
  have hi5 := hit_inv _ _ _ _ hi4 (mm_init s0).2.brk (by simp)
  rw [List.erase_cons_head] at hi5
  obtain ⟨d1, d2, d3⟩ := hit_bounds
    (free (miss (miss (mm_init s0).2 144) 240) ((mm_init s0).2.brk + 32)) (mm_init s0).2.brk
  -- malloc(9999)
  obtain ⟨m4, _⟩ := malloc_extend _ _ _ hi5 9999 f4 (by decide) (by decide)
    (by rw [e4, d2, d3, c2, c3, b2, b3, a2, a3, i2, i3]; omega) h4
  rw [e4] at m4
  refine ⟨_, _, _, _, _, _, _, i0, m1, m2, by rw [i2], by rw [i2], by omega, by omega, m3, d2,
    m4, ?_, ?_⟩
  · rw [(miss_bounds _ 10032).2.1]; omega
  · rw [d2, c2, b2, a2]; omega

/-- An instance of C12: the scenario on the empty heap at 4096 that can grow
up to 65536. -/
theorem C12_witness :
    heapL0.lo % 16 = 0 ∧ heapL0.brk = heapL0.lo ∧ heapL0.lo + 10448 ≤ heapL0.max ∧
    heapL0.max < W ∧
    ∃ A B C s2 s3 s5 s6, (mm_init heapL0).1 = true ∧
      malloc 1 (mm_init heapL0).2 100 = some (A, s2) ∧ malloc 1 s2 200 = some (B, s3) ∧
      A = heapL0.lo + 64 ∧ B = heapL0.lo + 208 ∧ A < B ∧ A + 100 ≤ B ∧
      malloc 1 (free s3 A) 50 = some (A, s5) ∧ s5.brk = (free s3 A).brk ∧
      malloc 1 s5 9999 = some (C, s6) ∧ s5.brk < s6.brk ∧ B + 200 < C :=
  ⟨by decide, by decide, by decide, by decide,
    C12_scenario heapL0 (by decide) (by decide) (by decide) (by decide) 1 1 1 1 (by decide)
      (by decide) (by decide) (by decide)⟩

/-! ## C18: the byte count of the copy in `realloc` -/

/-- The count `realloc_count` is the count that `realloc` passes to
`mm_memcpy`: when it is `n`, the inner `malloc` returned a non-null pointer `q`
and `realloc` returns `q` after copying `n` bytes from `p` to `q`. -/
theorem realloc_count_spec (fuel : Nat) (s : Heap) (p S n : Nat) (hp : p ≠ NULL) (hS : S ≠ 0)
    (h : realloc_count fuel s p S = some n) :
    ∃ q t2, malloc fuel (free s p) S = some (q, t2) ∧ q ≠ NULL ∧
      n = copy_size t2 (sub64 p hdr_size) S ∧
      realloc fuel s p S = some (q, { t2 with mem := mm_memcpy t2.mem q p n }) := by
  unfold realloc_count at h
  cases e : malloc fuel (free s p) S with
  | none => rw [e] at h; simp at h
  | some r =>
    obtain ⟨q, t2⟩ := r
    rw [e] at h
    simp only at h
    by_cases c : q = NULL
    · rw [if_pos c] at h; simp at h
    · rw [if_neg c] at h
      have hn : n = copy_size t2 (sub64 p hdr_size) S := (Option.some.inj h).symm
      refine ⟨q, t2, rfl, c, hn, ?_⟩
      unfold realloc
      rw [if_neg hp, if_neg hS]
      simp only [e, if_neg c, hn]

/-- A `malloc` on a well-formed heap changes no masked size; the only size
field it can change is that of the block it returns, whose flag it sets. -/
theorem malloc_sizes (s : Heap) (blocks fl live : List Nat) (hi : Inv s blocks fl live)
    (fuel S p : Nat) (t : Heap) (hm : malloc fuel s S = some (p, t)) :
    ∀ x ∈ s.lo :: blocks, rsize t x = rsize s x ∧
      (size_of t x = size_of s x ∨ (size_of t x = size_of s x + 1 ∧ p = x + 32)) := by
  intro x hx
  by_cases hs : S = 0
  · subst hs
    rw [malloc_zero] at hm
    have e2 : t = s := (congrArg Prod.snd (Option.some.inj hm)).symm
    subst e2
    exact ⟨rfl, Or.inl rfl⟩
  · have hr := malloc_some s blocks fl live hi fuel S hs _ hm
    rcases mallocResult_cases s blocks fl live hi S with ⟨b, hb, _, _, e⟩ | ⟨_, hmax, e⟩ |
      ⟨_, _, e⟩
    · rw [e] at hr
      have e1 : p = b + 32 := congrArg Prod.fst hr
      have e2 : t = hit s b := congrArg Prod.snd hr
      subst e1 e2
      have hf := ((hit_fields s blocks fl live hi b hb).2.2.2 x hx).1
      have hev : size_of s b % 2 = 0 := by
        have := (hi.fl_blk b hb).2; omega
      by_cases c : x = b
      · subst c
        rw [if_pos rfl] at hf
        rw [rsize_eq, rsize_eq, hf]
        exact ⟨by omega, Or.inr ⟨rfl, rfl⟩⟩
      · rw [if_neg c] at hf
        rw [rsize_eq, rsize_eq, hf]
        exact ⟨rfl, Or.inl rfl⟩
    · rw [e] at hr
      have e2 : t = miss s (align (add64 S hdr_size)) := congrArg Prod.snd hr
      subst e2
      have hf := ((miss_fields s blocks hi.layout _ (align_mod _) hmax).2.2.2.2 x hx).1
      rw [rsize_eq, rsize_eq, hf]
      exact ⟨rfl, Or.inl rfl⟩
    · rw [e] at hr
      have e2 : t = s := congrArg Prod.snd hr
      subst e2
      exact ⟨rfl, Or.inl rfl⟩

/-- The part of C18 that holds: on a well-formed heap, for a live pointer `p`
whose block has masked size `R` and a size `S ≥ 1` that fits
(`S + hdr_size + 15 < 2^64`), when `realloc(p, S)` copies, it copies
`min(R - hdr_size, S)` bytes. -/
theorem realloc_count_fits (s : Heap) (live : List Nat) (hw : WellFormed s live) (p : Nat)
    (hp : p ∈ live) (S : Nat) (hS : 1 ≤ S) (hfit : fits S) (fuel n : Nat)
    (h : realloc_count fuel s p S = some n) :
    n = min (rsize s (p - hdr_size) - hdr_size) S := by
  obtain ⟨blocks, fl, hi⟩ := hw
  have hlv := hi.live_blk p hp
  have hpn : p ≠ NULL := by unfold NULL; omega
  obtain ⟨q, t2, hm, hq, hn, _⟩ := realloc_count_spec fuel s p S n hpn (by omega) h
  have hi1 := free_inv s blocks fl live hi p hp
  obtain ⟨f1, _, _, ff⟩ := free_fields s blocks fl live hi p hp
  have hhn : p - 32 ∈ s.lo :: blocks := List.mem_cons_of_mem _ hlv.2.1
  have hodd : size_of s (p - 32) % 2 = 1 := hlv.2.2
  have hsz1 : size_of (free s p) (p - 32) = rsize s (p - 32) := by
    rw [(ff _ hhn).1, if_pos rfl, rsize_eq]; omega
  have hms := malloc_sizes (free s p) blocks _ _ hi1 fuel S q t2 hm (p - 32)
    (by rw [f1]; exact hhn)
  obtain ⟨_, _, _, hpost⟩ := malloc_inv (free s p) blocks _ _ hi1 fuel S q t2 hfit hm
  have hroom := (hpost hq).2.2.2
  have hb := hi.layout.blk _ hlv.2.1
  have hR := rsize_eq s (p - 32)
  have hlt := size_lt s (p - 32)
  have hsub := (Inv.live_lt s blocks fl live hi p hp).2
  unfold IsBlock at hb
  rw [hn, hsub, hdr_size_eq]
  unfold copy_size
  rw [hdr_size_eq]
  simp only
  rcases hms.2 with e | ⟨e, e2⟩
  · rw [e, hsz1]
    have : sub64 (rsize s (p - 32)) 32 = rsize s (p - 32) - 32 := by
      unfold sub64; unfold W at *; omega
    rw [this]
    split <;> omega
  · rw [e, hsz1]
    have h3 : rsize t2 (q - 32) = rsize s (p - 32) := by
      rw [e2, Nat.add_sub_cancel, rsize_eq, e, hsz1]; omega
    rw [h3] at hroom
    have : sub64 (rsize s (p - 32) + 1) 32 = rsize s (p - 32) - 31 := by
      unfold sub64; unfold W at *; omega
    rw [this]
    split <;> omega

/-- C18, the code at the failing input: on the well-formed heap `heapM`, whose
live pointer 4160 has a block of masked size 144, the inner `malloc` of
`realloc(4160, 2^64 - 1)` returns 4160, and the number of bytes passed to the
copy is 113, while `min(R - hdr_size, S)` is 112. -/
theorem C18_copy_count_off_by_one :
    WellFormed heapM [4160] ∧ 4160 ∈ [4160] ∧ rsize heapM (4160 - hdr_size) = 144 ∧
    ret (malloc 1 (free heapM 4160) (2 ^ 64 - 1)) = 4160 ∧
    realloc_count 1 heapM 4160 (2 ^ 64 - 1) = some 113 ∧
    min (rsize heapM (4160 - hdr_size) - hdr_size) (2 ^ 64 - 1) = 112 :=
  ⟨⟨_, _, Inv_heapM⟩, by decide, by decide, by decide, by decide, by decide⟩

/-! ## C19: live allocations do not overlap -/

theorem map_fst_erase : ∀ (live : List (Nat × Nat)) (p S : Nat),
    (live.map Prod.fst).Nodup → (p, S) ∈ live →
    (live.erase (p, S)).map Prod.fst = (live.map Prod.fst).erase p := by
  intro live
  induction live with
  | nil => intro p S _ h; simp at h
  | cons a l ih =>
    intro p S hnd hmem
    simp only [List.map_cons] at hnd
    have hnd2 := (List.nodup_cons.1 hnd).2
    have ha := (List.nodup_cons.1 hnd).1
    by_cases e : a = (p, S)
    · subst e
      simp
    · have hl : (p, S) ∈ l := by
        rcases List.mem_cons.1 hmem with c | c
        · exact absurd c.symm e
        · exact c
      have hne : a.1 ≠ p := by
        intro c
        apply ha
        rw [c]
        exact List.mem_map.2 ⟨(p, S), hl, rfl⟩
      rw [List.erase_cons_tail (by simpa using e), List.map_cons, List.map_cons,
        List.erase_cons_tail (by simpa using hne), ih p S hnd2 hl]

/-- A `free` of a live pointer changes no masked size. -/
theorem free_sizes (s : Heap) (blocks fl live : List Nat) (hi : Inv s blocks fl live)
    (p : Nat) (hp : p ∈ live) : ∀ x ∈ s.lo :: blocks, rsize (free s p) x = rsize s x := by
  intro x hx
  have hf := ((free_fields s blocks fl live hi p hp).2.2.2 x hx).1
  have hodd : size_of s (p - 32) % 2 = 1 := (hi.live_blk p hp).2.2
  rw [rsize_eq, rsize_eq, hf]
  by_cases c : x = p - 32
  · rw [if_pos c, c]; omega
  · rw [if_neg c]

/-- Every heap reached by `malloc` and `free` calls with sizes that fit is well
formed, and every live block has room for the size requested. -/
theorem Allocs_inv (s : Heap) (live : List (Nat × Nat)) (h : Allocs s live) : AInv s live := by
  induction h with
  | init s0 hlo hbrk hmax hW =>
    exact ⟨[], [], mm_init_inv s0 hlo hbrk hmax hW, by intro a ha; simp at ha⟩
  | malloc fuel size p s t live _ h1 hok hm ih =>
    obtain ⟨blocks, fl, hi, hsz⟩ := ih
    obtain ⟨b2, f2, hi2, hpost⟩ := malloc_inv s blocks fl _ hi fuel size p t hok hm
    have hms := malloc_sizes s blocks fl _ hi fuel size p t hm
    have hold : ∀ a ∈ live, a.2 + 32 ≤ rsize t (a.1 - 32) := by
      intro a ha
      have hb := (hi.live_blk a.1 (List.mem_map.2 ⟨a, ha, rfl⟩)).2.1
      rw [(hms _ (List.mem_cons_of_mem _ hb)).1]
      exact hsz a ha
    by_cases c : p = NULL
    · rw [if_pos c]
      rw [c] at hi2
      exact ⟨b2, f2, by simpa [addLive] using hi2, hold⟩
    · rw [if_neg c]
      refine ⟨b2, f2, by simpa [addLive, c] using hi2, ?_⟩
      intro a ha
      rcases List.mem_cons.1 ha with e | ha2
      · rw [e]; exact (hpost c).2.2.2
      · exact hold a ha2
  | free p size s live _ hp ih =>
    obtain ⟨blocks, fl, hi, hsz⟩ := ih
    have hpl : p ∈ live.map Prod.fst := List.mem_map.2 ⟨(p, size), hp, rfl⟩
    have hfr := free_inv s blocks fl _ hi p hpl
    rw [← map_fst_erase live p size hi.live_nodup hp] at hfr
    refine ⟨blocks, _, hfr, ?_⟩
    intro a ha
    have ha2 : a ∈ live := List.mem_of_mem_erase ha
    have hb := (hi.live_blk a.1 (List.mem_map.2 ⟨a, ha2, rfl⟩)).2.1
    rw [free_sizes s blocks fl _ hi p hpl _ (List.mem_cons_of_mem _ hb)]
    exact hsz a ha2

/-- C19: in every heap reached from a successful `mm_init` by `malloc` calls
with sizes `S` such that `1 ≤ S` and `S + hdr_size + 15 < 2^64` and by `free`
calls on live pointers, for any two live pointers `p ≠ q` with requested sizes
`Sp` and `Sq` the ranges `[p, p+Sp)` and `[q, q+Sq)` are disjoint; and for the
blocks found by walking the heap from the sentinel, among which are the blocks
behind the live pointers, no range `[p, p+Sp)` meets the header
`[h, h+hdr_size)` of a block `h` or of the sentinel. -/
theorem C19_live_disjoint (s : Heap) (live : List (Nat × Nat)) (hr : Allocs s live) :
    (∀ a ∈ live, ∀ b ∈ live, a.1 ≠ b.1 → a.1 + a.2 ≤ b.1 ∨ b.1 + b.2 ≤ a.1) ∧
    ∃ blocks, Tiles s s.lo (s.lo :: blocks) ∧ (∀ a ∈ live, a.1 - hdr_size ∈ blocks) ∧
      ∀ a ∈ live, ∀ h ∈ s.lo :: blocks, a.1 + a.2 ≤ h ∨ h + hdr_size ≤ a.1 := by
  obtain ⟨blocks, fl, hi, hsz⟩ := Allocs_inv s live hr
  have hl := hi.layout
  have hlive : ∀ a ∈ live, 32 ≤ a.1 ∧ a.1 - 32 ∈ blocks := fun a ha =>
    ⟨(hi.live_blk a.1 (List.mem_map.2 ⟨a, ha, rfl⟩)).1,
      (hi.live_blk a.1 (List.mem_map.2 ⟨a, ha, rfl⟩)).2.1⟩
  rw [hdr_size_eq]
  refine ⟨?_, blocks, Layout.walk s blocks hl, fun a ha => (hlive a ha).2, ?_⟩
  · intro a ha b hb hne
    have h1 := hlive a ha
    have h2 := hlive b hb
    have s1 := hsz a ha
    have s2 := hsz b hb
    rcases Nat.lt_trichotomy (a.1 - 32) (b.1 - 32) with c | c | c
    · have := hl.disj _ h1.2 _ h2.2 c; omega
    · omega
    · have := hl.disj _ h2.2 _ h1.2 c; omega
  · intro a ha h hh
    have h1 := hlive a ha
    have s1 := hsz a ha
    rcases List.mem_cons.1 hh with e | hb
    · have := (hl.blk _ h1.2).2.1
      omega
    · rcases Nat.lt_trichotomy h (a.1 - 32) with c | c | c
      · have := hl.disj h hb _ h1.2 c
        have := (hl.blk h hb).2.2.1
        omega
      · omega
      · have := hl.disj _ h1.2 h hb c
        omega

/-- The heap after `mm_init`, `malloc(100)` and `malloc(200)` is reached, with
the live pointers 4304 and 4160. -/
theorem Allocs_heapM2 : Allocs heapM2 [(4304, 200), (4160, 100)] := by
  have r0 : Allocs heap1 [] :=
    Allocs.init heap0 (by decide) (by decide) (by decide) (by decide)
  have r1 := Allocs.malloc 1 100 _ heap1 _ [] r0 (by decide) (by decide)
    (ret_after (malloc 1 heap1 100) (by decide))
  have e1 : (if ret (malloc 1 heap1 100) = NULL then ([] : List (Nat × Nat))
      else [(ret (malloc 1 heap1 100), 100)]) = [(4160, 100)] := by decide
  rw [e1] at r1
  have r2 := Allocs.malloc 1 200 _ heapM _ _ r1 (by decide) (by decide)
    (ret_after (malloc 1 heapM 200) (by decide))
  have e2 : (if ret (malloc 1 heapM 200) = NULL then [(4160, 100)]
      else (ret (malloc 1 heapM 200), 200) :: [(4160, 100)]) = [(4304, 200), (4160, 100)] := by
    decide
  rw [e2] at r2
  exact r2

/-- An instance of C19: the two live allocations after `mm_init`,
`malloc(100)` and `malloc(200)`. -/
theorem C19_witness :
    Allocs heapM2 [(4304, 200), (4160, 100)] ∧
    (4304 + 200 ≤ 4160 ∨ 4160 + 100 ≤ 4304) :=
  ⟨Allocs_heapM2,
    (C19_live_disjoint heapM2 _ Allocs_heapM2).1 (4304, 200) (by decide) (4160, 100)
      (by decide) (by decide)⟩

/-! ## C20: `realloc` in place -/

theorem Heap_eta (u : Heap) : ({ u with mem := u.mem } : Heap) = u := by
  cases u
  rfl

/-- On a well-formed heap, a `realloc` of a live pointer to a size that the
block can hold frees the block and takes it again. -/
theorem realloc_reuse (s : Heap) (blocks fl live : List Nat) (hi : Inv s blocks fl live)
    (p : Nat) (hp : p ∈ live) (S : Nat) (hS1 : 1 ≤ S) (hS2 : S ≤ rsize s (p - 32) - 32)
    (fuel : Nat) (hf : 1 ≤ fuel) :
    realloc fuel s p S = some (p, hit (free s p) (p - 32)) := by
  have hlv := hi.live_blk p hp
  have hb := hi.layout.blk _ hlv.2.1
  obtain ⟨f1, f2, f3, ff⟩ := free_fields s blocks fl live hi p hp
  have hhn : p - 32 ∈ s.lo :: blocks := List.mem_cons_of_mem _ hlv.2.1
  have hodd : size_of s (p - 32) % 2 = 1 := hlv.2.2
  have hR := rsize_eq s (p - 32)
  have hsz1 : size_of (free s p) (p - 32) = rsize s (p - 32) := by
    rw [(ff _ hhn).1, if_pos rfl, hR]; omega
  have hnx : next_of (free s p) (free s p).lo = p - 32 := by
    rw [f1, (ff _ (by simp)).2.1, if_pos rfl]
  have hbp := Inv.block_pos s blocks hi.layout _ hlv.2.1
  have hpe : add64 (p - 32) hdr_size = p := by rw [hbp.2.2.1]; omega
  have hpn : p ≠ NULL := by unfold NULL; omega
  unfold IsBlock at hb
  have hfit : fits S := by
    have h1 := hi.layout.brk_le
    have h2 := hi.layout.max_lt
    unfold fits
    rw [hdr_size_eq]
    omega
  have hreq : align (add64 S hdr_size) ≤ size_of (free s p) (next_of (free s p) (free s p).lo) := by
    rw [hnx, hsz1, req_of_fits S hfit]
    omega
  have hm := malloc_first (free s p) S fuel (by omega) hf hreq (by rw [hnx, f1]; exact hbp.2.1)
    (by rw [hnx]; exact hbp.1)
  rw [hnx, hpe] at hm
  have hre : realloc fuel s p S = some (p, { hit (free s p) (p - 32) with
      mem := mm_memcpy (hit (free s p) (p - 32)).mem p p
        (copy_size (hit (free s p) (p - 32)) (sub64 p hdr_size) S) }) := by
    unfold realloc
    rw [if_neg hpn, if_neg (by omega)]
    simp only [hm, if_neg hpn]
  rw [hre, mm_memcpy_self, Heap_eta]

/-- C20: on a well-formed heap whose free list after the sentinel is `fl`, for
a live pointer `p` whose block has masked size `R` and a size `S` with
`1 ≤ S ≤ R - hdr_size`, `realloc(p, S)` returns `p` (for every budget of at
least one step), leaves the break where it was, and leaves the free list as it
was: the heap after the call is well formed with the same free list `fl`, and
the `next` and `prev` fields of the sentinel and of every node of `fl` are
unchanged. -/
theorem C20_realloc_in_place (s : Heap) (blocks fl live : List Nat)
    (hi : Inv s blocks fl live) (p : Nat) (hp : p ∈ live) (S : Nat) (hS1 : 1 ≤ S)
    (hS2 : S ≤ rsize s (p - hdr_size) - hdr_size) (fuel : Nat) (hf : 1 ≤ fuel) :
    ∃ t, realloc fuel s p S = some (p, t) ∧ t.brk = s.brk ∧
      mm_heap_lo t = mm_heap_lo s ∧ Inv t blocks fl (p :: live.erase p) ∧
      NextChain t (mm_heap_lo t) fl (mm_heap_lo t) ∧
      ∀ x ∈ s.lo :: fl, next_of t x = next_of s x ∧ prev_of t x = prev_of s x := by
  rw [hdr_size_eq] at hS2
  have hre := realloc_reuse s blocks fl live hi p hp S hS1 hS2 fuel hf
  have hlv := hi.live_blk p hp
  have hfr := free_inv s blocks fl live hi p hp
  obtain ⟨f1, f2, _, ff⟩ := free_fields s blocks fl live hi p hp
  have hmem : p - 32 ∈ (p - 32) :: fl := by simp
  have hi2 := hit_inv (free s p) blocks _ _ hfr (p - 32) hmem
  obtain ⟨g1, g2, _, gf⟩ := hit_fields (free s p) blocks _ _ hfr (p - 32) hmem
  rw [List.erase_cons_head] at hi2
  have e32 : p - 32 + 32 = p := by omega
  rw [e32] at hi2
  have hhn : p - 32 ∈ s.lo :: blocks := List.mem_cons_of_mem _ hlv.2.1
  have hnf := Inv.live_not_fl s blocks fl live hi p hp
  have hhlo : p - 32 ≠ s.lo := by
    have := (hi.layout.blk _ hlv.2.1).2.1; omega
  have hfm := Inv.first_mem s blocks fl live hi
  have hhfirst : p - 32 ≠ next_of s s.lo := by
    intro e
    rw [← e] at hfm
    rcases List.mem_cons.1 hfm with c | c
    · exact hhlo c
    · exact hnf c
  have hprev : prev_of (free s p) (p - 32) = s.lo := by
    rw [(ff _ hhn).2.2, if_neg hhfirst, if_pos rfl]
  have hnext : next_of (free s p) (p - 32) = next_of s s.lo := by
    rw [(ff _ hhn).2.1, if_neg hhlo, if_pos rfl]
  have hpl := Linked_prev_next s s.lo fl s.lo hi.linked s.lo (by simp)
  refine ⟨_, hre, by rw [g2, f2], by unfold mm_heap_lo; rw [g1, f1], hi2,
    Linked_NextChain _ _ _ _ hi2.linked, ?_⟩
  intro x hx
  have hxn : x ∈ s.lo :: blocks := Inv.fl_node s blocks fl live hi x hx
  have hxn1 : x ∈ (free s p).lo :: blocks := by rw [f1]; exact hxn
  have hxh : x ≠ p - 32 := by
    intro e
    rw [e] at hx
    rcases List.mem_cons.1 hx with c | c
    · exact hhlo c
    · exact hnf c
  rw [(gf x hxn1).2.1, (gf x hxn1).2.2, hprev, hnext, (ff x hxn).2.1, (ff x hxn).2.2]
  constructor
  · by_cases c : x = s.lo
    · rw [if_pos c, c]
    · rw [if_neg c, if_neg c, if_neg hxh]
  · by_cases c : x = next_of s s.lo
    · rw [if_pos c, c, hpl]
    · rw [if_neg c, if_neg c, if_neg hxh]

/-- An instance of C20: `realloc(4160, 100)` on the heap after `mm_init` and
`malloc(100)`, whose only block has masked size 144. -/
theorem C20_witness :
    Inv heapM [4128] [] [4160] ∧ 4160 ∈ [4160] ∧ 1 ≤ 100 ∧
    100 ≤ rsize heapM (4160 - hdr_size) - hdr_size ∧ 1 ≤ 1 ∧
    ∃ t, realloc 1 heapM 4160 100 = some (4160, t) ∧ t.brk = heapM.brk ∧
      mm_heap_lo t = mm_heap_lo heapM ∧ Inv t [4128] [] (4160 :: [4160].erase 4160) ∧
      NextChain t (mm_heap_lo t) [] (mm_heap_lo t) ∧
      ∀ x ∈ heapM.lo :: [], next_of t x = next_of heapM x ∧ prev_of t x = prev_of heapM x :=
  ⟨Inv_heapM, by decide, by decide, by decide, by decide,
    C20_realloc_in_place heapM [4128] [] [4160] Inv_heapM 4160 (by decide) 100 (by decide)
      (by decide) 1 (by decide)⟩

end Malloc
